import Mathlib

/-!
Shallow embedding of `check_submission.py`: a checker that validates a student
submission against an assignment template using `BEGIN-TODO(tag)` /
`END-TODO(tag)` marker lines.  Documents are modelled as lists of lines
(`List String`); line numbers are 1-indexed as in the source.  The newline
convention used by the string-level wrappers is a plain `'\n'`.
-/

namespace CheckSubmission

/-- Python `\s` on the characters relevant here (ASCII whitespace). -/
def isSpaceChar (c : Char) : Bool :=
  c = ' ' || c = '\t' || c = '\n' || c = '\x0d' || c = '\x0b' || c = '\x0c'

/-- Split a character list at every `'\n'` (keeping empty pieces). -/
def splitChars : List Char → List (List Char)
  | [] => [[]]
  | c :: cs =>
    if c = '\n' then [] :: splitChars cs
    else
      match splitChars cs with
      | [] => [[c]]
      | l :: ls => (c :: l) :: ls

/-- `str.splitlines()` for documents using `'\n'` line boundaries: the empty
text has no lines, and a trailing newline does not open a final empty line. -/
def splitLines (s : String) : List String :=
  if s.data.isEmpty then []
  else if s.data.getLast? = some '\n' then ((splitChars s.data).map String.mk).dropLast
  else (splitChars s.data).map String.mk

/-- After the literal `BEGIN-TODO(` / `END-TODO(` the regex `(.*?)\)` takes the
(lazy) run of characters before the first `)`; with no `)` the match fails. -/
def tagClose (isBegin : Bool) (s : List Char) : Option (Bool × String) :=
  if (s.dropWhile (fun c => c != ')')).isEmpty then none
  else some (isBegin, String.mk (s.takeWhile (fun c => c != ')')))

/-- One attempt of the regex `//\s*(BEGIN|END)-TODO\((.*?)\)` anchored at the
start of `s` (the alternation tries `BEGIN` before `END`). -/
def matchAt : List Char → Option (Bool × String)
  | c1 :: c2 :: rest =>
    if c1 = '/' ∧ c2 = '/' then
      if "BEGIN-TODO(".data.isPrefixOf (rest.dropWhile isSpaceChar) then
        tagClose true ((rest.dropWhile isSpaceChar).drop 11)
      else if "END-TODO(".data.isPrefixOf (rest.dropWhile isSpaceChar) then
        tagClose false ((rest.dropWhile isSpaceChar).drop 9)
      else none
    else none
  | _ => none

/-- `re.search`: the leftmost position where the marker pattern matches. -/
def searchMarker : List Char → Option (Bool × String)
  | [] => none
  | c :: cs =>
    match matchAt (c :: cs) with
    | some res => some res
    | none => searchMarker cs

/-- `tag_pattern.search(line)`, giving `(marker_type == BEGIN, tag)`. -/
def lineMarker (line : String) : Option (Bool × String) :=
  searchMarker line.data

/-- One entry of the `tags` dict during the scan: tag, begin line, optional
end line.  The list order is the dict's insertion order. -/
abbrev Entry := String × Nat × Option Nat

/-- `tag in tags` / `tags[tag]` on the insertion-ordered dict. -/
def dlookup : List Entry → String → Option (Nat × Option Nat)
  | [], _ => none
  | x :: xs, t => if x.1 = t then some x.2 else dlookup xs t

/-- `tags[tag] = (tags[tag][0], line_num)`: update in place, keep position. -/
def setEnd (d : List Entry) (t : String) (n : Nat) : List Entry :=
  d.map (fun x => if x.1 = t then (x.1, x.2.1, some n) else x)

def dupBeginMsg (t : String) (n : Nat) : String :=
  "Duplicate BEGIN-TODO tag \x27" ++ t ++ "\x27 found at line " ++ toString n ++ "."

def unmatchedEndMsg (t : String) (n : Nat) : String :=
  "END-TODO tag \x27" ++ t ++ "\x27 at line " ++ toString n ++ " has no matching BEGIN-TODO."

def dupEndMsg (t : String) (n : Nat) : String :=
  "Duplicate END-TODO tag \x27" ++ t ++ "\x27 found at line " ++ toString n ++ "."

def unmatchedBeginMsg (t : String) (b : Nat) : String :=
  "BEGIN-TODO tag \x27" ++ t ++ "\x27 at line " ++ toString b ++ " has no matching END-TODO."

def overlapMsg (x y : String × Nat × Nat) : String :=
  "Overlapping tags detected: \x27" ++ x.1 ++ "\x27 (lines " ++ toString x.2.1 ++ "-"
    ++ toString x.2.2 ++ ") and \x27" ++ y.1 ++ "\x27 (lines " ++ toString y.2.1 ++ "-"
    ++ toString y.2.2 ++ ")."

/-- The scanning loop of `extract_tags`, over the enumerated lines. -/
def scanLines : Nat → List String → List Entry → Except String (List Entry)
  | _, [], tags => .ok tags
  | n, line :: rest, tags =>
    match lineMarker line with
    | none => scanLines (n + 1) rest tags
    | some (true, tag) =>
      if (dlookup tags tag).isSome then .error (dupBeginMsg tag n)
      else scanLines (n + 1) rest (tags ++ [(tag, n, none)])
    | some (false, tag) =>
      match dlookup tags tag with
      | none => .error (unmatchedEndMsg tag n)
      | some (_, some _) => .error (dupEndMsg tag n)
      | some (_, none) => scanLines (n + 1) rest (setEnd tags tag n)

/-- The "missing END markers" pass: first tag whose end is unset raises. -/
def checkClosed : List Entry → Except String (List (String × Nat × Nat))
  | [] => .ok []
  | (t, b, some e) :: rest => (checkClosed rest).map (fun r => (t, b, e) :: r)
  | (t, b, none) :: _ => .error (unmatchedBeginMsg t b)

/-- Python tuple comparison `(b, e) <= (b', e')` (lexicographic). -/
def pairLe (x y : Nat × Nat) : Prop :=
  x.1 < y.1 ∨ (x.1 = y.1 ∧ x.2 ≤ y.2)

instance : DecidableRel pairLe := fun x y => by
  unfold pairLe; exact inferInstance

/-- `sorted(tags.items(), key=lambda x: x[1])`: order items by their value. -/
def itemLe (x y : String × Nat × Nat) : Prop := pairLe x.2 y.2

instance : DecidableRel itemLe := fun x y => by
  unfold itemLe; exact inferInstance

/-- The adjacent-pair overlap check on the value-sorted items. -/
def checkOverlap : List (String × Nat × Nat) → Except String Unit
  | x :: y :: rest =>
    if x.2.2 > y.2.1 then .error (overlapMsg x y) else checkOverlap (y :: rest)
  | _ => .ok ()

/-- `extract_tags`, over the line list of the document. -/
def extract_tags_lines (lines : List String) : Except String (List (String × Nat × Nat)) :=
  match scanLines 1 lines [] with
  | .error e => .error e
  | .ok d =>
    match checkClosed d with
    | .error e => .error e
    | .ok tags =>
      match checkOverlap (List.insertionSort itemLe tags) with
      | .error e => .error e
      | .ok _ => .ok tags

/-- `extract_tags(text)`. -/
def extract_tags (text : String) : Except String (List (String × Nat × Nat)) :=
  extract_tags_lines (splitLines text)

def missingTagsMsg (joined : String) : String :=
  "The following tags are missing in the submission: " ++ joined

def extraTagsMsg (joined : String) : String :=
  "The following extra tags are present in the submission: " ++ joined

def mismatchMsg (i : Nat) (expected actual : String) : String :=
  "Tag mismatch at position " ++ toString i ++ ": expected \x27" ++ expected
    ++ "\x27 but found \x27" ++ actual ++ "\x27."

/-- The order-mismatch loop of `compare_tags` (positions reported 1-based). -/
def compareOrder : List (String × String) → Nat → Except String Unit
  | [], _ => .ok ()
  | (expected, actual) :: rest, i =>
    if expected ≠ actual then .error (mismatchMsg i expected actual)
    else compareOrder rest (i + 1)

/-- `compare_tags(assignment_tags, submission_tags)`. -/
def compare_tags (assignment_tags submission_tags : List (String × Nat × Nat)) :
    Except String Unit :=
  let assignment_tag_order := assignment_tags.map (fun x => x.1)
  let submission_tag_order := submission_tags.map (fun x => x.1)
  let missing_tags := assignment_tag_order.filter (fun t => !submission_tag_order.contains t)
  if !missing_tags.isEmpty then
    .error (missingTagsMsg (String.intercalate ", " missing_tags))
  else
    let extra_tags := submission_tag_order.filter (fun t => !assignment_tag_order.contains t)
    if !extra_tags.isEmpty then
      .error (extraTagsMsg (String.intercalate ", " extra_tags))
    else compareOrder (assignment_tag_order.zip submission_tag_order) 1

/-- `"\n".join(...)`. -/
def joinLines : List String → String
  | [] => ""
  | [l] => l
  | l :: ls => l ++ "\n" ++ joinLines ls

/-- The segment loop of `extract_original_segments` over the sorted spans. -/
def segsLoop (lines : List String) : List (Nat × Nat) → Nat → List String
  | [], prev_end =>
    if prev_end < lines.length then [joinLines (lines.drop prev_end)] else []
  | (b, e) :: rest, prev_end =>
    (if prev_end < b - 1 then
      [joinLines ((lines.drop prev_end).take (b - 1 - prev_end))]
    else []) ++ segsLoop lines rest e

/-- `extract_original_segments(text, tags)` over the line list. -/
def extract_original_segments (lines : List String) (tags : List (String × Nat × Nat)) :
    List String :=
  segsLoop lines (List.insertionSort pairLe (tags.map (fun x => x.2))) 0

/-- `re.sub(r"\s+", "", s)`: delete every whitespace character. -/
def stripWS (s : String) : String :=
  String.mk (s.data.filter (fun c => !isSpaceChar c))

def modifiedMsg (a s : String) : String :=
  "The original text has been modified:\n" ++ a ++ "\n-------------------\n" ++ s

/-- The pairwise loop of `compare_segments` over the zipped segments. -/
def cmpSegsLoop : List (String × String) → Except String Unit
  | [] => .ok ()
  | (a, s) :: rest =>
    if stripWS a ≠ stripWS s then .error (modifiedMsg a s) else cmpSegsLoop rest

/-- `compare_segments(assignment_segments, submission_segments)`. -/
def compare_segments (assignment_segments submission_segments : List String) :
    Except String Unit :=
  cmpSegsLoop (assignment_segments.zip submission_segments)

/-- `tag in submission_tags` / `submission_tags[tag]` on the closed tag map. -/
def lookupTag : List (String × Nat × Nat) → String → Option (Nat × Nat)
  | [], _ => none
  | x :: xs, t => if x.1 = t then some x.2 else lookupTag xs t

/-- The per-tag loop of `insert_submission_tags`.  The two direct list
indexings of the source (`assignment_lines[assignment_begin]` and
`assignment_lines[assignment_end - 1]`) are modelled with `getD`; they are
in range whenever the tag map comes from a successful extraction. -/
def insertLoop (aLines sLines : List String) (sTags : List (String × Nat × Nat)) :
    List (String × Nat × Nat) → Nat → Except String (List String)
  | [], prev_end => .ok (aLines.drop prev_end)
  | (tag, ab, ae) :: rest, prev_end =>
    match lookupTag sTags tag with
    | none => .error ("Tag \x27" ++ tag ++ "\x27 found in assignment but not in submission.")
    | some (sb, se) =>
      (insertLoop aLines sLines sTags rest ae).map (fun tail =>
        ((aLines.drop prev_end).take (ab - prev_end))
          ++ [aLines.getD ab ""]
          ++ ((sLines.drop (sb + 1)).take (se - 1 - (sb + 1)))
          ++ [aLines.getD (ae - 1) ""]
          ++ tail)

/-- `insert_submission_tags(assignment_text, submission_text, ...)`. -/
def insert_submission_tags (assignment_text submission_text : String)
    (assignment_tags submission_tags : List (String × Nat × Nat)) : Except String String :=
  (insertLoop (splitLines assignment_text) (splitLines submission_text)
      submission_tags assignment_tags 0).map joinLines

/-- `check_filenames`; the `Settings.no_filename_check` global is passed
explicitly (its warning-printing branch simply succeeds here). -/
def check_filenames (no_filename_check : Bool) (assignment_file submission_file : String) :
    Except String Unit :=
  if !("-assignment.dfy".data.isSuffixOf assignment_file.data) then
    .error "The assignment file must end with \x27-assignment.dfy\x27."
  else
    let expected :=
      String.mk (assignment_file.data.take (assignment_file.data.length - 15))
        ++ "-submission.dfy"
    if submission_file ≠ expected then
      if no_filename_check then .ok ()
      else .error ("The submission file must be named \x27" ++ expected ++ "\x27.")
    else .ok ()

def rejectedMsg (e : String) : String := "The submission is REJECTED.\n" ++ e

def acceptedMsg : String := "The submission is ACCEPTED."

/-- `check_submission`; the two file reads are abstracted into the two text
arguments (the collaborator supplies the raw blobs). -/
def check_submission (no_filename_check : Bool)
    (assignment_file submission_file assignment_text submission_text : String) : String :=
  match check_filenames no_filename_check assignment_file submission_file with
  | .error e => rejectedMsg e
  | .ok _ =>
    match extract_tags assignment_text with
    | .error e => rejectedMsg e
    | .ok assignment_tags =>
      match extract_tags submission_text with
      | .error e => rejectedMsg e
      | .ok submission_tags =>
        match compare_tags assignment_tags submission_tags with
        | .error e => rejectedMsg e
        | .ok _ =>
          match compare_segments
              (extract_original_segments (splitLines assignment_text) assignment_tags)
              (extract_original_segments (splitLines submission_text) submission_tags) with
          | .error e => rejectedMsg e
          | .ok _ => acceptedMsg

/-! ### Auxiliary definitions used by the verification -/

/-- The literal token following the comment marker and optional whitespace. -/
def markerTok (b : Bool) : List Char :=
  if b then "BEGIN-TODO(".data else "END-TODO(".data

/-- The marker events of a document: for each line (numbered from `n`) that
the regex recognizes, the pair (line number, BEGIN?, tag). -/
def markerEvents : Nat → List String → List (Nat × Bool × String)
  | _, [] => []
  | n, line :: rest =>
    (match lineMarker line with
     | some (b, t) => [(n, b, t)]
     | none => []) ++ markerEvents (n + 1) rest

/-- The scanning loop of `extract_tags`, driven by the marker events only
(`scanLines` factors through it). -/
def scanEvents : List (Nat × Bool × String) → List Entry → Except String (List Entry)
  | [], tags => .ok tags
  | (n, true, tag) :: es, tags =>
    if (dlookup tags tag).isSome then .error (dupBeginMsg tag n)
    else scanEvents es (tags ++ [(tag, n, none)])
  | (n, false, tag) :: es, tags =>
    match dlookup tags tag with
    | none => .error (unmatchedEndMsg tag n)
    | some (_, some _) => .error (dupEndMsg tag n)
    | some (_, none) => scanEvents es (setEnd tags tag n)

/-- The keys of the scan dictionary, in insertion order. -/
def keysOf (d : List Entry) : List String := d.map (fun x => x.1)

/-- The line numbers recorded in one dictionary entry. -/
def entryNums (x : Entry) : List Nat :=
  match x.2.2 with
  | some e => [x.2.1, e]
  | none => [x.2.1]

/-- All line numbers recorded in the scan dictionary. -/
def dictNums (d : List Entry) : List Nat := d.flatMap entryNums

/-- Mirror of the segment loop keeping, in line order, both the gap line
runs (tagged `false`) and the marker-span line runs (tagged `true`). -/
def piecesLoop (lines : List String) : List (Nat × Nat) → Nat → List (Bool × List String)
  | [], p => if p < lines.length then [(false, lines.drop p)] else []
  | (b, e) :: rest, p =>
    (if p < b - 1 then [(false, (lines.drop p).take (b - 1 - p))] else [])
      ++ (true, (lines.drop (b - 1)).take (e - (b - 1))) :: piecesLoop lines rest e

/-- Mirror of the segment loop returning the 0-indexed half-open index
ranges `[start, stop)` of the produced segments. -/
def segRuns (len : Nat) : List (Nat × Nat) → Nat → List (Nat × Nat)
  | [], p => if p < len then [(p, len)] else []
  | (b, e) :: rest, p =>
    (if p < b - 1 then [(p, b - 1)] else []) ++ segRuns len rest e

/-- A BEGIN event whose tag never gets an END event. -/
def hasUnmatchedBegin (E : List (Nat × Bool × String)) : Prop :=
  ∃ n t, (n, true, t) ∈ E ∧ ∀ m, (m, false, t) ∉ E

/-- An END event for a tag that is never opened. -/
def hasUnmatchedEnd (E : List (Nat × Bool × String)) : Prop :=
  ∃ m t, (m, false, t) ∈ E ∧ ∀ n, (n, true, t) ∉ E

/-- Two BEGIN events, or two END events, for the same tag. -/
def hasDuplicateTag (E : List (Nat × Bool × String)) : Prop :=
  ∃ t n m, n ≠ m ∧
    (((n, true, t) ∈ E ∧ (m, true, t) ∈ E) ∨ ((n, false, t) ∈ E ∧ (m, false, t) ∈ E))

/-- Two tags' spans such that, in `(begin, end)` order, the earlier span's
end line exceeds the later span's begin line. -/
def hasOverlappingSpans (E : List (Nat × Bool × String)) : Prop :=
  ∃ t u b1 e1 b2 e2, t ≠ u ∧ (b1, true, t) ∈ E ∧ (e1, false, t) ∈ E ∧
    (b2, true, u) ∈ E ∧ (e2, false, u) ∈ E ∧ pairLe (b1, e1) (b2, e2) ∧ b2 < e1

/-! ### Properties of the segment comparison -/

theorem cmpSegsLoop_ok_iff (ps : List (String × String)) :
    cmpSegsLoop ps = .ok () ↔ ∀ p ∈ ps, stripWS p.1 = stripWS p.2 := by
  induction ps with
  | nil => simp [cmpSegsLoop]
  | cons p rest ih =>
    obtain ⟨a, s⟩ := p
    by_cases h : stripWS a = stripWS s
    · simp [cmpSegsLoop, h, ih]
    · simp [cmpSegsLoop, h]

theorem cmpSegsLoop_error (ps : List (String × String)) (e : String) :
    cmpSegsLoop ps = .error e →
    ∃ l p r, ps = l ++ p :: r ∧ (∀ q ∈ l, stripWS q.1 = stripWS q.2) ∧
      stripWS p.1 ≠ stripWS p.2 ∧ e = modifiedMsg p.1 p.2 := by
  induction ps with
  | nil => simp [cmpSegsLoop]
  | cons p rest ih =>
    obtain ⟨a, s⟩ := p
    by_cases h : stripWS a = stripWS s
    · intro herr
      rw [cmpSegsLoop, if_neg (by simp [h])] at herr
      obtain ⟨l, q, r, hps, hl, hq, he⟩ := ih herr
      exact ⟨(a, s) :: l, q, r, by simp [hps], by
        intro x hx
        rcases List.mem_cons.mp hx with hx | hx
        · subst hx; exact h
        · exact hl x hx, hq, he⟩
    · intro herr
      rw [cmpSegsLoop, if_pos h] at herr
      refine ⟨[], (a, s), rest, rfl, by simp, h, ?_⟩
      cases herr; rfl

/-- C4: `compare_segments` succeeds iff every positionally paired pair of
segments is equal after deleting all whitespace characters, and a failure
reports the first differing pair. -/
theorem compare_segments_stripped_eq_iff (aS sS : List String) :
    (compare_segments aS sS = .ok () ↔ ∀ p ∈ aS.zip sS, stripWS p.1 = stripWS p.2) ∧
    (∀ e, compare_segments aS sS = .error e →
      ∃ l p r, aS.zip sS = l ++ p :: r ∧ (∀ q ∈ l, stripWS q.1 = stripWS q.2) ∧
        stripWS p.1 ≠ stripWS p.2 ∧ e = modifiedMsg p.1 p.2) :=
  ⟨cmpSegsLoop_ok_iff _, fun e h => cmpSegsLoop_error _ e h⟩

/-- Witness for C4: the claim's two examples, decided through the theorem. -/
theorem compare_segments_stripped_eq_iff_witness :
    compare_segments ["x = 1;"] ["  x   =\n1; "] = .ok () ∧
    compare_segments ["x = 1;"] ["x = 2;"] ≠ .ok () := by
  constructor
  · exact (compare_segments_stripped_eq_iff _ _).1.mpr (by decide)
  · intro h
    have h2 := (compare_segments_stripped_eq_iff _ _).1.mp h ("x = 1;", "x = 2;") (by decide)
    exact absurd h2 (by decide)

theorem zip_take_right {α β : Type} (l : List α) (l' : List β) :
    l.zip (l'.take l.length) = l.zip l' := by
  induction l generalizing l' with
  | nil => simp
  | cons a as ih =>
    cases l' with
    | nil => simp
    | cons b bs => simp [List.zip_cons_cons, ih]

theorem zip_take_left {α β : Type} (l : List α) (l' : List β) :
    (l.take l'.length).zip l' = l.zip l' := by
  induction l generalizing l' with
  | nil => simp
  | cons a as ih =>
    cases l' with
    | nil => simp
    | cons b bs => simp [List.zip_cons_cons, ih]

/-- C9: unpaired trailing segments of the longer list are never examined:
truncating the longer list to the shorter one's length does not change the
result, and agreement of all positionally paired segments suffices. -/
theorem compare_segments_ignores_unpaired (aS sS : List String) :
    (compare_segments aS sS = compare_segments aS (sS.take aS.length)) ∧
    (compare_segments aS sS = compare_segments (aS.take sS.length) sS) ∧
    ((∀ p ∈ aS.zip sS, stripWS p.1 = stripWS p.2) → compare_segments aS sS = .ok ()) := by
  refine ⟨?_, ?_, fun h => (cmpSegsLoop_ok_iff _).mpr h⟩
  · unfold compare_segments; rw [zip_take_right]
  · unfold compare_segments; rw [zip_take_left]

/-- Witness for C9: the extra submission segment `"EXTRA JUNK"` is ignored. -/
theorem compare_segments_ignores_unpaired_witness :
    compare_segments ["x"] ["  x  ", "EXTRA JUNK"] = .ok () :=
  (compare_segments_ignores_unpaired _ _).2.2 (by decide)

/-! ### Segment counts (C2) -/

theorem segsLoop_length_le (lines : List String) :
    ∀ spans p, (segsLoop lines spans p).length ≤ spans.length + 1 := by
  intro spans
  induction spans with
  | nil =>
    intro p
    by_cases h : p < lines.length <;> simp [segsLoop, h]
  | cons s rest ih =>
    intro p
    obtain ⟨b, e⟩ := s
    have h1 := ih e
    by_cases h : p < b - 1 <;>
      simp only [segsLoop, h, if_pos, if_neg, not_false_iff, List.length_append,
        List.length_cons, List.length_singleton, List.nil_append, List.length_nil] <;>
      omega

/-- C2 (amended): each segment sequence has at most one segment per tag plus
one trailing segment; the two sequences' lengths need not be equal. -/
theorem extract_original_segments_length_le (lines : List String)
    (tags : List (String × Nat × Nat)) :
    (extract_original_segments lines tags).length ≤ tags.length + 1 := by
  unfold extract_original_segments
  have h := segsLoop_length_le lines (List.insertionSort pairLe (tags.map (fun x => x.2))) 0
  rwa [List.length_insertionSort, List.length_map] at h

/-- Counterexample for C2 as stated: both documents extract successfully with
the same single tag `a` (so `compare_tags` passes), yet the template yields
one segment and the submission yields none. -/
theorem segment_counts_can_differ :
    extract_tags "header\n// BEGIN-TODO(a)\nTODO\n// END-TODO(a)" = .ok [("a", 2, 4)] ∧
    extract_tags "// BEGIN-TODO(a)\nx\n// END-TODO(a)" = .ok [("a", 1, 3)] ∧
    compare_tags [("a", 2, 4)] [("a", 1, 3)] = .ok () ∧
    extract_original_segments
      (splitLines "header\n// BEGIN-TODO(a)\nTODO\n// END-TODO(a)") [("a", 2, 4)] = ["header"] ∧
    extract_original_segments
      (splitLines "// BEGIN-TODO(a)\nx\n// END-TODO(a)") [("a", 1, 3)] = [] :=
  ⟨rfl, rfl, rfl, rfl, rfl⟩

/-! ### The merge defect (C1) -/

/-- C1: on an accepted template/submission pair, `insert_submission_tags`
keeps the template's first in-span line (`TODO`) and drops the submission's
first payload line (`answer1`), instead of copying the submission payload
verbatim between the markers.  All earlier stages accept this pair. -/
theorem insert_submission_tags_drops_first_payload_line :
    extract_tags "header\n// BEGIN-TODO(a)\nTODO\n// END-TODO(a)\nfooter" = .ok [("a", 2, 4)] ∧
    extract_tags "header\n// BEGIN-TODO(a)\nanswer1\nanswer2\n// END-TODO(a)\nfooter"
      = .ok [("a", 2, 5)] ∧
    compare_tags [("a", 2, 4)] [("a", 2, 5)] = .ok () ∧
    compare_segments
      (extract_original_segments
        (splitLines "header\n// BEGIN-TODO(a)\nTODO\n// END-TODO(a)\nfooter") [("a", 2, 4)])
      (extract_original_segments
        (splitLines "header\n// BEGIN-TODO(a)\nanswer1\nanswer2\n// END-TODO(a)\nfooter")
        [("a", 2, 5)]) = .ok () ∧
    insert_submission_tags
      "header\n// BEGIN-TODO(a)\nTODO\n// END-TODO(a)\nfooter"
      "header\n// BEGIN-TODO(a)\nanswer1\nanswer2\n// END-TODO(a)\nfooter"
      [("a", 2, 4)] [("a", 2, 5)]
      = .ok "header\n// BEGIN-TODO(a)\nTODO\nanswer2\n// END-TODO(a)\nfooter" ∧
    ("header\n// BEGIN-TODO(a)\nTODO\nanswer2\n// END-TODO(a)\nfooter" : String)
      ≠ "header\n// BEGIN-TODO(a)\nanswer1\nanswer2\n// END-TODO(a)\nfooter" :=
  ⟨rfl, rfl, rfl, rfl, rfl, by decide⟩

/-! ### Marker recognition (C3) -/
theorem dropWhile_ne_paren_empty_iff (s : List Char) :
    ((s.dropWhile (fun c => c != ')')).isEmpty = true) ↔ ')' ∉ s := by
  induction s with
  | nil => simp
  | cons c cs ih =>
    by_cases h : c = ')'
    · subst h; simp [List.dropWhile_cons]
    · have hb : (c != ')') = true := by simp [h]
      rw [List.dropWhile_cons, if_pos hb, ih]
      constructor
      · intro hno hmem
        rcases List.mem_cons.mp hmem with he | he
        · exact h he.symm
        · exact hno he
      · intro hno hmem
        exact hno (List.mem_cons.mpr (Or.inr hmem))

theorem tagClose_isSome_iff (b : Bool) (s : List Char) :
    (tagClose b s).isSome = true ↔ ')' ∈ s := by
  by_cases h : (s.dropWhile (fun c => c != ')')).isEmpty = true
  · rw [tagClose, if_pos h]
    simp [(dropWhile_ne_paren_empty_iff s).mp h]
  · rw [tagClose, if_neg h]
    simp only [Option.isSome_some, true_iff]
    by_contra hn
    exact h ((dropWhile_ne_paren_empty_iff s).mpr hn)

theorem dropWhile_all_append {p : Char → Bool} (ws l : List Char)
    (h : ∀ c ∈ ws, p c = true) : (ws ++ l).dropWhile p = l.dropWhile p := by
  induction ws with
  | nil => simp
  | cons c cs ih =>
    simp only [List.cons_append, List.dropWhile_cons, h c (by simp), if_true]
    exact ih (fun c hc => h c (by simp [hc]))

theorem matchAt_isSome_iff (v : List Char) :
    (matchAt v).isSome = true ↔
      ∃ ws b rest, v = '/' :: '/' :: (ws ++ markerTok b ++ rest) ∧
        (∀ c ∈ ws, isSpaceChar c = true) ∧ ')' ∈ rest := by
  constructor
  · intro h
    match v with
    | [] => simp [matchAt] at h
    | [c] => simp [matchAt] at h
    | c1 :: c2 :: rest =>
      rw [matchAt] at h
      by_cases hc : c1 = '/' ∧ c2 = '/'
      case neg => rw [if_neg hc] at h; simp at h
      case pos =>
        rw [if_pos hc] at h
        obtain ⟨h1, h2⟩ := hc
        subst h1; subst h2
        have hsplit : List.takeWhile isSpaceChar rest ++ List.dropWhile isSpaceChar rest = rest :=
          List.takeWhile_append_dropWhile isSpaceChar rest
        by_cases hB : "BEGIN-TODO(".data.isPrefixOf (rest.dropWhile isSpaceChar) = true
        · rw [if_pos hB] at h
          obtain ⟨t, ht⟩ := List.isPrefixOf_iff_prefix.mp hB
          have hlen : ("BEGIN-TODO(".data).length = 11 := rfl
          have hdrop : (rest.dropWhile isSpaceChar).drop 11 = t := by
            rw [← ht, ← hlen, List.drop_left]
          rw [hdrop] at h
          have hrest : rest = rest.takeWhile isSpaceChar ++ ("BEGIN-TODO(".data ++ t) := by
            rw [ht, hsplit]
          refine ⟨rest.takeWhile isSpaceChar, true, t, ?_,
            fun c hcc => List.mem_takeWhile_imp hcc, (tagClose_isSome_iff _ _).mp h⟩
          conv_lhs => rw [hrest]
          simp [markerTok, List.append_assoc]
        · rw [if_neg hB] at h
          by_cases hE : "END-TODO(".data.isPrefixOf (rest.dropWhile isSpaceChar) = true
          · rw [if_pos hE] at h
            obtain ⟨t, ht⟩ := List.isPrefixOf_iff_prefix.mp hE
            have hlen : ("END-TODO(".data).length = 9 := rfl
            have hdrop : (rest.dropWhile isSpaceChar).drop 9 = t := by
              rw [← ht, ← hlen, List.drop_left]
            rw [hdrop] at h
            have hrest : rest = rest.takeWhile isSpaceChar ++ ("END-TODO(".data ++ t) := by
              rw [ht, hsplit]
            refine ⟨rest.takeWhile isSpaceChar, false, t, ?_,
              fun c hcc => List.mem_takeWhile_imp hcc, (tagClose_isSome_iff _ _).mp h⟩
            conv_lhs => rw [hrest]
            simp [markerTok, List.append_assoc]
          · rw [if_neg hE] at h; simp at h
  · rintro ⟨ws, b, t, hv, hws, hmem⟩
    subst hv
    rw [matchAt, if_pos ⟨rfl, rfl⟩]
    have hdw : (ws ++ markerTok b ++ t).dropWhile isSpaceChar = markerTok b ++ t := by
      rw [List.append_assoc, dropWhile_all_append ws _ hws]
      cases b
      · have he : markerTok false ++ t = 'E' :: ("ND-TODO(".data ++ t) := rfl
        rw [he, List.dropWhile_cons, if_neg (by decide)]
      · have hb2 : markerTok true ++ t = 'B' :: ("EGIN-TODO(".data ++ t) := rfl
        rw [hb2, List.dropWhile_cons, if_neg (by decide)]
    rw [hdw]
    cases b
    · have hnotB : ¬ ("BEGIN-TODO(".data.isPrefixOf (markerTok false ++ t) = true) := by
        rw [List.isPrefixOf_iff_prefix]
        rintro ⟨u, hu⟩
        have h1 : 'B' :: ("EGIN-TODO(".data ++ u) = 'E' :: ("ND-TODO(".data ++ t) := hu
        have h2 := congrArg List.head? h1
        simp only [List.head?_cons, Option.some.injEq] at h2
        exact absurd h2 (by decide)
      rw [if_neg hnotB]
      have hE : "END-TODO(".data.isPrefixOf (markerTok false ++ t) = true :=
        List.isPrefixOf_iff_prefix.mpr ⟨t, rfl⟩
      rw [if_pos hE]
      have hlen : ("END-TODO(".data).length = 9 := rfl
      have hdrop : (markerTok false ++ t).drop 9 = t := by
        rw [← hlen]; exact List.drop_left _ _
      rw [hdrop]
      exact (tagClose_isSome_iff _ _).mpr hmem
    · have hB : "BEGIN-TODO(".data.isPrefixOf (markerTok true ++ t) = true :=
        List.isPrefixOf_iff_prefix.mpr ⟨t, rfl⟩
      rw [if_pos hB]
      have hlen : ("BEGIN-TODO(".data).length = 11 := rfl
      have hdrop : (markerTok true ++ t).drop 11 = t := by
        rw [← hlen]; exact List.drop_left _ _
      rw [hdrop]
      exact (tagClose_isSome_iff _ _).mpr hmem



theorem searchMarker_isSome_iff (l : List Char) :
    (searchMarker l).isSome = true ↔ ∃ u v, l = u ++ v ∧ (matchAt v).isSome = true := by
  induction l with
  | nil =>
    constructor
    · intro h; simp [searchMarker] at h
    · rintro ⟨u, v, huv, h⟩
      obtain ⟨hu, hv⟩ := List.append_eq_nil.mp huv.symm
      subst hv; simp [matchAt] at h
  | cons c cs ih =>
    rw [searchMarker]
    cases hm : matchAt (c :: cs) with
    | some res =>
      simp only [Option.isSome_some, true_iff]
      exact ⟨[], c :: cs, rfl, by rw [hm]; rfl⟩
    | none =>
      simp only []
      rw [ih]
      constructor
      · rintro ⟨u, v, huv, h⟩
        exact ⟨c :: u, v, by rw [huv, List.cons_append], h⟩
      · rintro ⟨u, v, huv, h⟩
        cases u with
        | nil =>
          simp only [List.nil_append] at huv
          rw [← huv, hm] at h
          simp at h
        | cons c0 u' =>
          rw [List.cons_append] at huv
          injection huv with e1 e2
          exact ⟨u', v, e2, h⟩



/-- C3 (amended): recognition characterization. -/
theorem lineMarker_iff_comment_marker (line : String) :
    (lineMarker line).isSome = true ↔
      ∃ u ws b rest, line.data = u ++ ('/' :: '/' :: (ws ++ markerTok b ++ rest)) ∧
        (∀ c ∈ ws, isSpaceChar c = true) ∧ ')' ∈ rest := by
  unfold lineMarker
  rw [searchMarker_isSome_iff]
  constructor
  · rintro ⟨u, v, huv, h⟩
    obtain ⟨ws, b, rest, hv, hws, hmem⟩ := (matchAt_isSome_iff v).mp h
    exact ⟨u, ws, b, rest, by rw [huv, hv], hws, hmem⟩
  · rintro ⟨u, ws, b, rest, hl, hws, hmem⟩
    exact ⟨u, _, hl, (matchAt_isSome_iff _).mpr ⟨ws, b, rest, rfl, hws, hmem⟩⟩

theorem lineMarker_iff_comment_marker_witness :
    (lineMarker "// BEGIN-TODO(a)").isSome = true :=
  (lineMarker_iff_comment_marker _).mpr
    ⟨[], [' '], true, ['a', ')'], by decide, by decide, by decide⟩

theorem marker_without_comment_prefix_unrecognized :
    lineMarker "BEGIN-TODO(a)" = none ∧
    "BEGIN-TODO(a)".data = markerTok true ++ ['a', ')'] ∧ (')' : Char) ∈ ['a', ')'] :=
  ⟨rfl, rfl, by decide⟩

/-! ### The scan dictionary -/
theorem keysOf_cons (x : Entry) (xs : List Entry) :
    keysOf (x :: xs) = x.1 :: keysOf xs := rfl

theorem keysOf_append (d1 d2 : List Entry) :
    keysOf (d1 ++ d2) = keysOf d1 ++ keysOf d2 := by
  simp [keysOf]

theorem dictNums_cons (x : Entry) (xs : List Entry) :
    dictNums (x :: xs) = entryNums x ++ dictNums xs := rfl

theorem dictNums_append (d1 d2 : List Entry) :
    dictNums (d1 ++ d2) = dictNums d1 ++ dictNums d2 := by
  simp [dictNums]

theorem dlookup_isSome_iff_mem_keys (d : List Entry) (t : String) :
    (dlookup d t).isSome = true ↔ t ∈ keysOf d := by
  induction d with
  | nil => simp [dlookup, keysOf]
  | cons x xs ih =>
    rw [keysOf_cons]
    by_cases h : x.1 = t
    · simp [dlookup, h]
    · rw [dlookup, if_neg h, ih]
      simp only [List.mem_cons]
      constructor
      · exact Or.inr
      · rintro (he | he)
        · exact absurd he.symm h
        · exact he

theorem dlookup_mem (d : List Entry) (t : String) (v : Nat × Option Nat)
    (h : dlookup d t = some v) : (t, v.1, v.2) ∈ d := by
  induction d with
  | nil => simp [dlookup] at h
  | cons x xs ih =>
    by_cases hx : x.1 = t
    · rw [dlookup, if_pos hx] at h
      cases h
      rw [← hx]
      exact List.mem_cons_self x xs
    · rw [dlookup, if_neg hx] at h
      exact List.mem_cons.mpr (Or.inr (ih h))

theorem nodup_keys_cons (x : Entry) (xs : List Entry)
    (hnd : (keysOf (x :: xs)).Nodup) : x.1 ∉ keysOf xs ∧ (keysOf xs).Nodup := by
  rw [keysOf_cons] at hnd
  exact ⟨(List.nodup_cons.mp hnd).1, (List.nodup_cons.mp hnd).2⟩

theorem dlookup_of_mem_nodup (d : List Entry) (t : String) (b : Nat) (oe : Option Nat)
    (hnd : (keysOf d).Nodup) (h : (t, b, oe) ∈ d) : dlookup d t = some (b, oe) := by
  induction d with
  | nil => simp at h
  | cons x xs ih =>
    obtain ⟨hx1, hx2⟩ := nodup_keys_cons x xs hnd
    rcases List.mem_cons.mp h with he | he
    · rw [dlookup, if_pos (by rw [← he])]
      rw [← he]
    · have hx : x.1 ≠ t := by
        intro hxt
        exact hx1 (hxt ▸ List.mem_map_of_mem (fun y => y.1) he)
      rw [dlookup, if_neg hx]
      exact ih hx2 he

theorem setEnd_cons (x : Entry) (xs : List Entry) (t : String) (m : Nat) :
    setEnd (x :: xs) t m =
      (if x.1 = t then (x.1, x.2.1, some m) else x) :: setEnd xs t m := rfl

theorem setEnd_of_not_mem_keys (d : List Entry) (t : String) (m : Nat)
    (h : t ∉ keysOf d) : setEnd d t m = d := by
  induction d with
  | nil => rfl
  | cons x xs ih =>
    rw [keysOf_cons] at h
    have hx : x.1 ≠ t := fun he => h (List.mem_cons.mpr (Or.inl he.symm))
    have hxs : t ∉ keysOf xs := fun he => h (List.mem_cons.mpr (Or.inr he))
    rw [setEnd_cons, if_neg hx, ih hxs]

theorem keysOf_setEnd (d : List Entry) (t : String) (m : Nat) :
    keysOf (setEnd d t m) = keysOf d := by
  induction d with
  | nil => rfl
  | cons x xs ih =>
    rw [setEnd_cons, keysOf_cons, keysOf_cons, ih]
    by_cases h : x.1 = t
    · rw [if_pos h]
    · rw [if_neg h]

theorem mem_nums_of_mem (d : List Entry) (x : Entry) (h : x ∈ d) :
    x.2.1 ∈ dictNums d ∧ ∀ e, x.2.2 = some e → e ∈ dictNums d := by
  constructor
  · exact List.mem_flatMap.mpr ⟨x, h, by unfold entryNums; cases x.2.2 <;> simp⟩
  · intro e he
    exact List.mem_flatMap.mpr ⟨x, h, by unfold entryNums; rw [he]; simp⟩

theorem dictNums_setEnd_eq (t : String) (m b0 : Nat) :
    ∀ d, (keysOf d).Nodup → (t, b0, none) ∈ d →
      ∃ l1 l2, dictNums d = l1 ++ b0 :: l2 ∧
        dictNums (setEnd d t m) = l1 ++ b0 :: m :: l2 := by
  intro d
  induction d with
  | nil => intro _ h; simp at h
  | cons x xs ih =>
    intro hnd hmem
    obtain ⟨hnd1, hnd2⟩ := nodup_keys_cons x xs hnd
    rcases List.mem_cons.mp hmem with he | he
    · subst he
      have hxs : t ∉ keysOf xs := hnd1
      refine ⟨[], dictNums xs, ?_, ?_⟩
      · rfl
      · rw [setEnd_cons, if_pos rfl, setEnd_of_not_mem_keys xs t m hxs]
        rfl
    · have hx : x.1 ≠ t := by
        intro hxt
        exact hnd1 (hxt ▸ List.mem_map_of_mem (fun y => y.1) he)
      obtain ⟨l1, l2, h1, h2⟩ := ih hnd2 he
      refine ⟨entryNums x ++ l1, l2, ?_, ?_⟩
      · rw [dictNums_cons, h1, List.append_assoc]
      · rw [setEnd_cons, if_neg hx, dictNums_cons, h2, List.append_assoc]

/-! ### The scan as a function of the marker events -/
theorem nodup_concat_of {α : Type} (l : List α) (a : α) (h : l.Nodup) (ha : a ∉ l) :
    (l ++ [a]).Nodup := by
  simp [List.nodup_append, h, ha]

theorem scanLines_eq_scanEvents (lines : List String) :
    ∀ n d, scanLines n lines d = scanEvents (markerEvents n lines) d := by
  induction lines with
  | nil => intro n d; rfl
  | cons line rest ih =>
    intro n d
    rw [scanLines, markerEvents]
    cases hm : lineMarker line with
    | none =>
      simp only [List.nil_append]
      exact ih (n + 1) d
    | some bt =>
      obtain ⟨b, t⟩ := bt
      cases b
      · show (match dlookup d t with
          | none => Except.error (unmatchedEndMsg t n)
          | some (_, some _) => Except.error (dupEndMsg t n)
          | some (_, none) => scanLines (n + 1) rest (setEnd d t n))
          = scanEvents ((n, false, t) :: markerEvents (n + 1) rest) d
        rw [scanEvents]
        cases hv : dlookup d t with
        | none => rfl
        | some v =>
          obtain ⟨b0, oe⟩ := v
          cases oe with
          | none => exact ih (n + 1) (setEnd d t n)
          | some e0 => rfl
      · show (if (dlookup d t).isSome = true then Except.error (dupBeginMsg t n)
            else scanLines (n + 1) rest (d ++ [(t, n, none)]))
          = scanEvents ((n, true, t) :: markerEvents (n + 1) rest) d
        rw [scanEvents]
        by_cases hdl : (dlookup d t).isSome = true
        · rw [if_pos hdl, if_pos hdl]
        · rw [if_neg hdl, if_neg hdl]
          exact ih (n + 1) (d ++ [(t, n, none)])



theorem scanEvents_nil (d : List Entry) : scanEvents [] d = .ok d := rfl

theorem scanEvents_keys_mono :
    ∀ E d r, scanEvents E d = .ok r → ∀ t, t ∈ keysOf d → t ∈ keysOf r := by
  intro E
  induction E with
  | nil =>
    intro d r h t ht
    rw [scanEvents_nil] at h
    cases h
    exact ht
  | cons ev es ih =>
    intro d r h t ht
    obtain ⟨n, b, u⟩ := ev
    cases b
    · rw [scanEvents] at h
      cases hv : dlookup d u with
      | none => rw [hv] at h; exact absurd h (by simp)
      | some v =>
        obtain ⟨b0, oe⟩ := v
        cases oe with
        | some e0 => rw [hv] at h; exact absurd h (by simp)
        | none =>
          rw [hv] at h
          exact ih _ _ h t (by rw [keysOf_setEnd]; exact ht)
    · rw [scanEvents] at h
      by_cases hdl : (dlookup d u).isSome = true
      · rw [if_pos hdl] at h; exact absurd h (by simp)
      · rw [if_neg hdl] at h
        refine ih _ _ h t ?_
        rw [keysOf_append]
        exact List.mem_append_left _ ht



theorem mem_setEnd_of_mem (d : List Entry) (u : String) (m : Nat) (x : Entry)
    (h : x ∈ d) (hne : x.1 ≠ u) : x ∈ setEnd d u m := by
  have h0 : (if x.1 = u then (x.1, x.2.1, some m) else x) ∈ setEnd d u m :=
    List.mem_map_of_mem _ h
  rwa [if_neg hne] at h0

theorem mem_setEnd_self (d : List Entry) (u : String) (m b : Nat) (oe : Option Nat)
    (h : (u, b, oe) ∈ d) : (u, b, some m) ∈ setEnd d u m := by
  have h0 : (if (u, b, oe).1 = u then ((u, b, oe).1, (u, b, oe).2.1, some m) else (u, b, oe))
      ∈ setEnd d u m :=
    List.mem_map_of_mem _ h
  rw [if_pos rfl] at h0
  exact h0

theorem mem_setEnd_inv (d : List Entry) (u : String) (m : Nat) (x : Entry)
    (h : x ∈ setEnd d u m) : ∃ oe1, (x.1, x.2.1, oe1) ∈ d := by
  obtain ⟨y, hy, hf⟩ := List.mem_map.mp h
  by_cases hyu : y.1 = u
  · rw [if_pos hyu] at hf
    subst hf
    exact ⟨y.2.2, hy⟩
  · rw [if_neg hyu] at hf
    subst hf
    exact ⟨y.2.2, hy⟩

theorem mem_setEnd_some_inv (d : List Entry) (u : String) (m : Nat)
    (t : String) (b e : Nat) (h : (t, b, some e) ∈ setEnd d u m) :
    (t, b, some e) ∈ d ∨ (t = u ∧ e = m ∧ ∃ oe1, (u, b, oe1) ∈ d) := by
  obtain ⟨y, hy, hf⟩ := List.mem_map.mp h
  by_cases hyu : y.1 = u
  · rw [if_pos hyu] at hf
    injection hf with ha hbc
    injection hbc with hb hc
    injection hc with hme
    right
    refine ⟨ha ▸ hyu, hme.symm, y.2.2, ?_⟩
    rw [← hyu, ← hb]
    exact hy
  · rw [if_neg hyu] at hf
    rw [← hf]
    exact Or.inl hy

theorem scanEvents_closed_stable :
    ∀ E d r, scanEvents E d = .ok r → (keysOf d).Nodup →
      ∀ t b e, (t, b, some e) ∈ d → (t, b, some e) ∈ r := by
  intro E
  induction E with
  | nil =>
    intro d r h _ t b e hm
    rw [scanEvents_nil] at h
    cases h
    exact hm
  | cons ev es ih =>
    intro d r h hnd t b e hm
    obtain ⟨n, bb, u⟩ := ev
    cases bb
    · rw [scanEvents] at h
      cases hv : dlookup d u with
      | none => rw [hv] at h; exact absurd h (by simp)
      | some v =>
        obtain ⟨b0, oe⟩ := v
        cases oe with
        | some e0 => rw [hv] at h; exact absurd h (by simp)
        | none =>
          rw [hv] at h
          have hne : u ≠ t := by
            intro he
            subst he
            rw [dlookup_of_mem_nodup d u b (some e) hnd hm] at hv
            simp at hv
          refine ih _ _ h (by rw [keysOf_setEnd]; exact hnd) t b e ?_
          exact mem_setEnd_of_mem d u n _ hm (fun he => hne he.symm)
    · rw [scanEvents] at h
      by_cases hdl : (dlookup d u).isSome = true
      · rw [if_pos hdl] at h; exact absurd h (by simp)
      · rw [if_neg hdl] at h
        have hnotin : u ∉ keysOf d :=
          fun hmem => hdl ((dlookup_isSome_iff_mem_keys d u).mpr hmem)
        refine ih _ _ h ?_ t b e (List.mem_append_left _ hm)
        rw [keysOf_append]
        exact nodup_concat_of _ u hnd hnotin

theorem scanEvents_open_stable :
    ∀ E d r, scanEvents E d = .ok r → (keysOf d).Nodup →
      ∀ t b, (t, b, none) ∈ d → ∃ oe, (t, b, oe) ∈ r := by
  intro E
  induction E with
  | nil =>
    intro d r h _ t b hm
    rw [scanEvents_nil] at h
    cases h
    exact ⟨none, hm⟩
  | cons ev es ih =>
    intro d r h hnd t b hm
    obtain ⟨n, bb, u⟩ := ev
    cases bb
    · rw [scanEvents] at h
      cases hv : dlookup d u with
      | none => rw [hv] at h; exact absurd h (by simp)
      | some v =>
        obtain ⟨b0, oe⟩ := v
        cases oe with
        | some e0 => rw [hv] at h; exact absurd h (by simp)
        | none =>
          rw [hv] at h
          have hndse : (keysOf (setEnd d u n)).Nodup := by
            rw [keysOf_setEnd]; exact hnd
          by_cases hu : u = t
          · subst hu
            have hb0 : b0 = b := by
              rw [dlookup_of_mem_nodup d u b none hnd hm] at hv
              injection hv with hv2
              injection hv2 with hv3 hv4
              exact hv3.symm
            exact ⟨some n,
              scanEvents_closed_stable es _ r h hndse u b n
                (mem_setEnd_self d u n b none hm)⟩
          · exact ih _ _ h hndse t b
              (mem_setEnd_of_mem d u n _ hm (fun he => hu he.symm))
    · rw [scanEvents] at h
      by_cases hdl : (dlookup d u).isSome = true
      · rw [if_pos hdl] at h; exact absurd h (by simp)
      · rw [if_neg hdl] at h
        have hnotin : u ∉ keysOf d :=
          fun hmem => hdl ((dlookup_isSome_iff_mem_keys d u).mpr hmem)
        refine ih _ _ h ?_ t b (List.mem_append_left _ hm)
        rw [keysOf_append]
        exact nodup_concat_of _ u hnd hnotin

theorem scanEvents_begin_lands :
    ∀ E d r, scanEvents E d = .ok r → (keysOf d).Nodup →
      ∀ n t, (n, true, t) ∈ E → ∃ oe, (t, n, oe) ∈ r := by
  intro E
  induction E with
  | nil => intro d r _ _ n t hm; simp at hm
  | cons ev es ih =>
    intro d r h hnd n t hmE
    obtain ⟨m, bb, u⟩ := ev
    rcases List.mem_cons.mp hmE with he | he
    · injection he with h1 h23
      injection h23 with h2 h3
      subst h1; subst h3
      cases h2
      rw [scanEvents] at h
      by_cases hdl : (dlookup d t).isSome = true
      · rw [if_pos hdl] at h; exact absurd h (by simp)
      · rw [if_neg hdl] at h
        have hnotin : t ∉ keysOf d :=
          fun hmem => hdl ((dlookup_isSome_iff_mem_keys d t).mpr hmem)
        have hnd2 : (keysOf (d ++ [(t, n, none)])).Nodup := by
          rw [keysOf_append]
          exact nodup_concat_of _ t hnd hnotin
        exact scanEvents_open_stable es _ r h hnd2 t n
          (List.mem_append_right _ (List.mem_singleton.mpr rfl))
    · cases bb
      · rw [scanEvents] at h
        cases hv : dlookup d u with
        | none => rw [hv] at h; exact absurd h (by simp)
        | some v =>
          obtain ⟨b0, oe⟩ := v
          cases oe with
          | some e0 => rw [hv] at h; exact absurd h (by simp)
          | none =>
            rw [hv] at h
            exact ih _ _ h (by rw [keysOf_setEnd]; exact hnd) n t he
      · rw [scanEvents] at h
        by_cases hdl : (dlookup d u).isSome = true
        · rw [if_pos hdl] at h; exact absurd h (by simp)
        · rw [if_neg hdl] at h
          have hnotin : u ∉ keysOf d :=
            fun hmem => hdl ((dlookup_isSome_iff_mem_keys d u).mpr hmem)
          refine ih _ _ h ?_ n t he
          rw [keysOf_append]
          exact nodup_concat_of _ u hnd hnotin

theorem scanEvents_end_lands :
    ∀ E d r, scanEvents E d = .ok r → (keysOf d).Nodup →
      ∀ m t, (m, false, t) ∈ E → ∃ b, (t, b, some m) ∈ r := by
  intro E
  induction E with
  | nil => intro d r _ _ m t hm; simp at hm
  | cons ev es ih =>
    intro d r h hnd m t hmE
    obtain ⟨n, bb, u⟩ := ev
    rcases List.mem_cons.mp hmE with he | he
    · injection he with h1 h23
      injection h23 with h2 h3
      subst h1; subst h3
      cases h2
      rw [scanEvents] at h
      cases hv : dlookup d t with
      | none => rw [hv] at h; exact absurd h (by simp)
      | some v =>
        obtain ⟨b0, oe⟩ := v
        cases oe with
        | some e0 => rw [hv] at h; exact absurd h (by simp)
        | none =>
          rw [hv] at h
          have hmemd := dlookup_mem d t (b0, none) hv
          exact ⟨b0, scanEvents_closed_stable es _ r h
            (by rw [keysOf_setEnd]; exact hnd) t b0 m
            (mem_setEnd_self d t m b0 none hmemd)⟩
    · cases bb
      · rw [scanEvents] at h
        cases hv : dlookup d u with
        | none => rw [hv] at h; exact absurd h (by simp)
        | some v =>
          obtain ⟨b0, oe⟩ := v
          cases oe with
          | some e0 => rw [hv] at h; exact absurd h (by simp)
          | none =>
            rw [hv] at h
            exact ih _ _ h (by rw [keysOf_setEnd]; exact hnd) m t he
      · rw [scanEvents] at h
        by_cases hdl : (dlookup d u).isSome = true
        · rw [if_pos hdl] at h; exact absurd h (by simp)
        · rw [if_neg hdl] at h
          have hnotin : u ∉ keysOf d :=
            fun hmem => hdl ((dlookup_isSome_iff_mem_keys d u).mpr hmem)
          refine ih _ _ h ?_ m t he
          rw [keysOf_append]
          exact nodup_concat_of _ u hnd hnotin



theorem scanEvents_key_origin :
    ∀ E d r, scanEvents E d = .ok r →
      ∀ t, t ∈ keysOf r → t ∈ keysOf d ∨ ∃ n, (n, true, t) ∈ E := by
  intro E
  induction E with
  | nil =>
    intro d r h t ht
    rw [scanEvents_nil] at h
    cases h
    exact Or.inl ht
  | cons ev es ih =>
    intro d r h t ht
    obtain ⟨n, bb, u⟩ := ev
    cases bb
    · rw [scanEvents] at h
      cases hv : dlookup d u with
      | none => rw [hv] at h; exact absurd h (by simp)
      | some v =>
        obtain ⟨b0, oe⟩ := v
        cases oe with
        | some e0 => rw [hv] at h; exact absurd h (by simp)
        | none =>
          rw [hv] at h
          rcases ih _ _ h t ht with hin | ⟨n0, hn0⟩
          · rw [keysOf_setEnd] at hin
            exact Or.inl hin
          · exact Or.inr ⟨n0, List.mem_cons.mpr (Or.inr hn0)⟩
    · rw [scanEvents] at h
      by_cases hdl : (dlookup d u).isSome = true
      · rw [if_pos hdl] at h; exact absurd h (by simp)
      · rw [if_neg hdl] at h
        rcases ih _ _ h t ht with hin | ⟨n0, hn0⟩
        · rw [keysOf_append] at hin
          rcases List.mem_append.mp hin with hin | hin
          · exact Or.inl hin
          · have : t = u := by simpa [keysOf] using hin
            exact Or.inr ⟨n, List.mem_cons.mpr (Or.inl (by rw [this]))⟩
        · exact Or.inr ⟨n0, List.mem_cons.mpr (Or.inr hn0)⟩

theorem scanEvents_begin_origin :
    ∀ E d r, scanEvents E d = .ok r →
      ∀ t b oe, (t, b, oe) ∈ r → (∃ oe0, (t, b, oe0) ∈ d) ∨ (b, true, t) ∈ E := by
  intro E
  induction E with
  | nil =>
    intro d r h t b oe hm
    rw [scanEvents_nil] at h
    cases h
    exact Or.inl ⟨oe, hm⟩
  | cons ev es ih =>
    intro d r h t b oe hm
    obtain ⟨n, bb, u⟩ := ev
    cases bb
    · rw [scanEvents] at h
      cases hv : dlookup d u with
      | none => rw [hv] at h; exact absurd h (by simp)
      | some v =>
        obtain ⟨b0, oe1⟩ := v
        cases oe1 with
        | some e0 => rw [hv] at h; exact absurd h (by simp)
        | none =>
          rw [hv] at h
          rcases ih _ _ h t b oe hm with ⟨oe0, hoe0⟩ | hE
          · have := mem_setEnd_inv d u n (t, b, oe0) hoe0
            exact Or.inl this
          · exact Or.inr (List.mem_cons.mpr (Or.inr hE))
    · rw [scanEvents] at h
      by_cases hdl : (dlookup d u).isSome = true
      · rw [if_pos hdl] at h; exact absurd h (by simp)
      · rw [if_neg hdl] at h
        rcases ih _ _ h t b oe hm with ⟨oe0, hoe0⟩ | hE
        · rcases List.mem_append.mp hoe0 with hin | hin
          · exact Or.inl ⟨oe0, hin⟩
          · have he : (t, b, oe0) = (u, n, none) := List.mem_singleton.mp hin
            injection he with ha hbc
            injection hbc with hb hc
            subst ha; subst hb
            exact Or.inr (List.mem_cons.mpr (Or.inl rfl))
        · exact Or.inr (List.mem_cons.mpr (Or.inr hE))

theorem scanEvents_end_origin :
    ∀ E d r, scanEvents E d = .ok r →
      ∀ t b e, (t, b, some e) ∈ r → (t, b, some e) ∈ d ∨ (e, false, t) ∈ E := by
  intro E
  induction E with
  | nil =>
    intro d r h t b e hm
    rw [scanEvents_nil] at h
    cases h
    exact Or.inl hm
  | cons ev es ih =>
    intro d r h t b e hm
    obtain ⟨n, bb, u⟩ := ev
    cases bb
    · rw [scanEvents] at h
      cases hv : dlookup d u with
      | none => rw [hv] at h; exact absurd h (by simp)
      | some v =>
        obtain ⟨b0, oe1⟩ := v
        cases oe1 with
        | some e0 => rw [hv] at h; exact absurd h (by simp)
        | none =>
          rw [hv] at h
          rcases ih _ _ h t b e hm with hin | hE
          · rcases mem_setEnd_some_inv d u n t b e hin with hin2 | ⟨htu, hen, _⟩
            · exact Or.inl hin2
            · subst htu; subst hen
              exact Or.inr (List.mem_cons.mpr (Or.inl rfl))
          · exact Or.inr (List.mem_cons.mpr (Or.inr hE))
    · rw [scanEvents] at h
      by_cases hdl : (dlookup d u).isSome = true
      · rw [if_pos hdl] at h; exact absurd h (by simp)
      · rw [if_neg hdl] at h
        rcases ih _ _ h t b e hm with hin | hE
        · rcases List.mem_append.mp hin with hin | hin
          · exact Or.inl hin
          · have he2 : (t, b, some e) = (u, n, none) := List.mem_singleton.mp hin
            injection he2 with ha hbc
            injection hbc with hb hc
            exact absurd hc (by simp)
        · exact Or.inr (List.mem_cons.mpr (Or.inr hE))



theorem nodup_insert_middle (l1 l2 : List Nat) (b0 n : Nat)
    (hnd : (l1 ++ b0 :: l2).Nodup) (hn : n ∉ l1 ++ b0 :: l2) :
    (l1 ++ b0 :: n :: l2).Nodup := by
  have hperm : (l1 ++ b0 :: n :: l2).Perm (n :: (l1 ++ b0 :: l2)) := by
    have h1 : l1 ++ b0 :: n :: l2 = (l1 ++ [b0]) ++ n :: l2 := by simp
    have h2 : (n : Nat) :: ((l1 ++ [b0]) ++ l2) = n :: (l1 ++ b0 :: l2) := by simp
    rw [h1, ← h2]
    exact List.perm_middle
  exact hperm.nodup_iff.mpr (List.nodup_cons.mpr ⟨hn, hnd⟩)

theorem setEnd_entry_fst (x : Entry) (u : String) (n : Nat) :
    ((if x.1 = u then (x.1, x.2.1, some n) else x) : Entry).1 = x.1 := by
  split <;> rfl

theorem setEnd_entry_begin (x : Entry) (u : String) (n : Nat) :
    ((if x.1 = u then (x.1, x.2.1, some n) else x) : Entry).2.1 = x.2.1 := by
  split <;> rfl

theorem pairwise_begins_setEnd (d : List Entry) (u : String) (n : Nat)
    (hp : List.Pairwise (fun x y : Entry => x.2.1 < y.2.1) d) :
    List.Pairwise (fun x y : Entry => x.2.1 < y.2.1) (setEnd d u n) := by
  refine List.pairwise_map.mpr (hp.imp ?_)
  intro a b hab
  rw [setEnd_entry_begin, setEnd_entry_begin]
  exact hab

theorem scanEvents_invariant :
    ∀ E d r, scanEvents E d = .ok r →
      List.Pairwise (fun a b : Nat × Bool × String => a.1 < b.1) E →
      (∀ ev ∈ E, ∀ k ∈ dictNums d, k < ev.1) →
      (keysOf d).Nodup →
      (dictNums d).Nodup →
      List.Pairwise (fun x y : Entry => x.2.1 < y.2.1) d →
      (∀ x ∈ d, ∀ e, x.2.2 = some e → x.2.1 < e) →
      (keysOf r).Nodup ∧ (dictNums r).Nodup ∧
        List.Pairwise (fun x y : Entry => x.2.1 < y.2.1) r ∧
        (∀ x ∈ r, ∀ e, x.2.2 = some e → x.2.1 < e) ∧
        (∀ k ∈ dictNums r, k ∈ dictNums d ∨ ∃ ev ∈ E, ev.1 = k) := by
  intro E
  induction E with
  | nil =>
    intro d r h _ _ hk hn hp hc
    rw [scanEvents_nil] at h
    cases h
    exact ⟨hk, hn, hp, hc, fun k hk2 => Or.inl hk2⟩
  | cons ev es ih =>
    intro d r h hEpair hbound hk hn hp hc
    obtain ⟨n, bb, u⟩ := ev
    obtain ⟨hhead, htail⟩ := List.pairwise_cons.mp hEpair
    cases bb
    · -- END event (n, false, u)
      rw [scanEvents] at h
      cases hv : dlookup d u with
      | none => rw [hv] at h; exact absurd h (by simp)
      | some v =>
        obtain ⟨b0, oe⟩ := v
        cases oe with
        | some e0 => rw [hv] at h; exact absurd h (by simp)
        | none =>
          rw [hv] at h
          have hmemd : (u, b0, none) ∈ d := dlookup_mem d u (b0, none) hv
          obtain ⟨l1, l2, hn1, hn2⟩ := dictNums_setEnd_eq u n b0 d hk hmemd
          have hnumsd : ∀ k ∈ dictNums d, k < n := fun k hk2 =>
            hbound (n, false, u) (List.mem_cons_self _ _) k hk2
          have hmem_d2 : ∀ k, k ∈ dictNums (setEnd d u n) → k ∈ dictNums d ∨ k = n := by
            intro k hk2
            rw [hn2] at hk2
            rw [hn1]
            rcases List.mem_append.mp hk2 with hk3 | hk3
            · exact Or.inl (List.mem_append.mpr (Or.inl hk3))
            · rcases List.mem_cons.mp hk3 with hk4 | hk4
              · exact Or.inl (List.mem_append.mpr (Or.inr (List.mem_cons.mpr (Or.inl hk4))))
              · rcases List.mem_cons.mp hk4 with hk5 | hk5
                · exact Or.inr hk5
                · exact Or.inl (List.mem_append.mpr (Or.inr (List.mem_cons.mpr (Or.inr hk5))))
          have hknd : (keysOf (setEnd d u n)).Nodup := by
            rw [keysOf_setEnd]; exact hk
          have hnnd : (dictNums (setEnd d u n)).Nodup := by
            rw [hn2]
            refine nodup_insert_middle l1 l2 b0 n (hn1 ▸ hn) ?_
            rw [← hn1]
            intro hmem
            exact absurd (hnumsd n hmem) (lt_irrefl n)
          have hpnd : List.Pairwise (fun x y : Entry => x.2.1 < y.2.1) (setEnd d u n) :=
            pairwise_begins_setEnd d u n hp
          have hcnd : ∀ x ∈ setEnd d u n, ∀ e, x.2.2 = some e → x.2.1 < e := by
            intro x hx e he
            obtain ⟨y, hy, hf⟩ := List.mem_map.mp hx
            by_cases hyu : y.1 = u
            · rw [if_pos hyu] at hf
              subst hf
              injection he with he2
              subst he2
              exact hnumsd y.2.1 (mem_nums_of_mem d y hy).1
            · rw [if_neg hyu] at hf
              subst hf
              exact hc y hy e he
          have hbnd : ∀ ev ∈ es, ∀ k ∈ dictNums (setEnd d u n), k < ev.1 := by
            intro ev hev k hk2
            rcases hmem_d2 k hk2 with hk3 | hk3
            · exact hbound ev (List.mem_cons.mpr (Or.inr hev)) k hk3
            · rw [hk3]; exact hhead ev hev
          obtain ⟨c1, c2, c3, c4, c5⟩ := ih _ _ h htail hbnd hknd hnnd hpnd hcnd
          refine ⟨c1, c2, c3, c4, ?_⟩
          intro k hk2
          rcases c5 k hk2 with hk3 | ⟨ev, hev, hevk⟩
          · rcases hmem_d2 k hk3 with hk4 | hk4
            · exact Or.inl hk4
            · exact Or.inr ⟨(n, false, u), List.mem_cons_self _ _, hk4.symm⟩
          · exact Or.inr ⟨ev, List.mem_cons.mpr (Or.inr hev), hevk⟩
    · -- BEGIN event (n, true, u)
      rw [scanEvents] at h
      by_cases hdl : (dlookup d u).isSome = true
      · rw [if_pos hdl] at h; exact absurd h (by simp)
      · rw [if_neg hdl] at h
        have hnotin : u ∉ keysOf d :=
          fun hmem => hdl ((dlookup_isSome_iff_mem_keys d u).mpr hmem)
        have hnumsd : ∀ k ∈ dictNums d, k < n := fun k hk2 =>
          hbound (n, true, u) (List.mem_cons_self _ _) k hk2
        have hnums2 : dictNums (d ++ [(u, n, none)]) = dictNums d ++ [n] := by
          rw [dictNums_append]; rfl
        have hknd : (keysOf (d ++ [(u, n, none)])).Nodup := by
          rw [keysOf_append]
          exact nodup_concat_of _ u hk hnotin
        have hnnd : (dictNums (d ++ [(u, n, none)])).Nodup := by
          rw [hnums2]
          exact nodup_concat_of _ n hn
            (fun hmem => absurd (hnumsd n hmem) (lt_irrefl n))
        have hpnd : List.Pairwise (fun x y : Entry => x.2.1 < y.2.1)
            (d ++ [(u, n, none)]) := by
          rw [List.pairwise_append]
          refine ⟨hp, List.pairwise_singleton _ _, ?_⟩
          intro x hx y hy
          rw [List.mem_singleton.mp hy]
          exact hnumsd x.2.1 (mem_nums_of_mem d x hx).1
        have hcnd : ∀ x ∈ d ++ [(u, n, none)], ∀ e, x.2.2 = some e → x.2.1 < e := by
          intro x hx e he
          rcases List.mem_append.mp hx with hx2 | hx2
          · exact hc x hx2 e he
          · rw [List.mem_singleton.mp hx2] at he
            exact absurd he (by simp)
        have hbnd : ∀ ev ∈ es, ∀ k ∈ dictNums (d ++ [(u, n, none)]), k < ev.1 := by
          intro ev hev k hk2
          rw [hnums2] at hk2
          rcases List.mem_append.mp hk2 with hk3 | hk3
          · exact hbound ev (List.mem_cons.mpr (Or.inr hev)) k hk3
          · rw [List.mem_singleton.mp hk3]
            exact hhead ev hev
        obtain ⟨c1, c2, c3, c4, c5⟩ := ih _ _ h htail hbnd hknd hnnd hpnd hcnd
        refine ⟨c1, c2, c3, c4, ?_⟩
        intro k hk2
        rcases c5 k hk2 with hk3 | ⟨ev, hev, hevk⟩
        · rw [hnums2] at hk3
          rcases List.mem_append.mp hk3 with hk4 | hk4
          · exact Or.inl hk4
          · exact Or.inr ⟨(n, true, u), List.mem_cons_self _ _,
              (List.mem_singleton.mp hk4).symm⟩
        · exact Or.inr ⟨ev, List.mem_cons.mpr (Or.inr hev), hevk⟩

/-! ### What a successful extraction guarantees -/
theorem markerEvents_bounds (lines : List String) :
    ∀ n, ∀ ev ∈ markerEvents n lines, n ≤ ev.1 ∧ ev.1 < n + lines.length := by
  induction lines with
  | nil => intro n ev hev; simp [markerEvents] at hev
  | cons line rest ih =>
    intro n ev hev
    rw [markerEvents] at hev
    cases hm : lineMarker line with
    | none =>
      rw [hm] at hev
      rw [List.nil_append] at hev
      have := ih (n + 1) ev hev
      simp only [List.length_cons]
      omega
    | some bt =>
      obtain ⟨b, t⟩ := bt
      rw [hm] at hev
      rcases List.mem_append.mp hev with h | h
      · rw [List.mem_singleton.mp h]
        simp only [List.length_cons]
        omega
      · have := ih (n + 1) ev h
        simp only [List.length_cons]
        omega

theorem markerEvents_pairwise (lines : List String) :
    ∀ n, List.Pairwise (fun a b : Nat × Bool × String => a.1 < b.1) (markerEvents n lines) := by
  induction lines with
  | nil => intro n; simp [markerEvents]
  | cons line rest ih =>
    intro n
    rw [markerEvents]
    cases hm : lineMarker line with
    | none =>
      rw [List.nil_append]
      exact ih (n + 1)
    | some bt =>
      obtain ⟨b, t⟩ := bt
      rw [List.singleton_append, List.pairwise_cons]
      refine ⟨?_, ih (n + 1)⟩
      intro ev hev
      have := markerEvents_bounds rest (n + 1) ev hev
      omega

theorem extract_tags_lines_ok_inv (lines : List String) (tm : List (String × Nat × Nat))
    (h : extract_tags_lines lines = .ok tm) :
    ∃ r, scanEvents (markerEvents 1 lines) [] = .ok r ∧ checkClosed r = .ok tm ∧
      checkOverlap (List.insertionSort itemLe tm) = .ok () := by
  unfold extract_tags_lines at h
  rw [scanLines_eq_scanEvents] at h
  cases hs : scanEvents (markerEvents 1 lines) [] with
  | error e => rw [hs] at h; simp at h
  | ok r =>
    rw [hs] at h
    have h1 : (match checkClosed r with
      | Except.error e => (Except.error e : Except String (List (String × Nat × Nat)))
      | Except.ok tags =>
        match checkOverlap (List.insertionSort itemLe tags) with
        | Except.error e => Except.error e
        | Except.ok _ => Except.ok tags) = Except.ok tm := h
    cases hcc : checkClosed r with
    | error e =>
      rw [hcc] at h1
      exact Except.noConfusion
        (h1 : (Except.error e : Except String (List (String × Nat × Nat))) = Except.ok tm)
    | ok tags =>
      rw [hcc] at h1
      have h2 : (match checkOverlap (List.insertionSort itemLe tags) with
        | Except.error e => (Except.error e : Except String (List (String × Nat × Nat)))
        | Except.ok _ => Except.ok tags) = Except.ok tm := h1
      cases hco : checkOverlap (List.insertionSort itemLe tags) with
      | error e =>
        rw [hco] at h2
        exact Except.noConfusion
          (h2 : (Except.error e : Except String (List (String × Nat × Nat))) = Except.ok tm)
      | ok u =>
        cases u
        rw [hco] at h2
        have h4 : (Except.ok tags : Except String (List (String × Nat × Nat)))
            = Except.ok tm := h2
        injection h4 with h5
        subst h5
        exact ⟨r, rfl, hcc, hco⟩

theorem checkClosed_ok :
    ∀ d c, checkClosed d = .ok c →
      d = c.map (fun x : String × Nat × Nat => ((x.1, x.2.1, some x.2.2) : Entry)) := by
  intro d
  induction d with
  | nil =>
    intro c h
    rw [show checkClosed [] = .ok [] from rfl] at h
    injection h with h2
    subst h2
    rfl
  | cons x xs ih =>
    intro c h
    obtain ⟨t, b, oe⟩ := x
    cases oe with
    | none => rw [checkClosed] at h; simp at h
    | some e =>
      rw [checkClosed] at h
      cases hxs : checkClosed xs with
      | error e2 =>
        rw [hxs] at h
        exact Except.noConfusion
          (h : (Except.error e2 : Except String (List (String × Nat × Nat))) = Except.ok c)
      | ok c2 =>
        rw [hxs] at h
        simp only [Except.map] at h
        injection h with h2
        subst h2
        rw [List.map_cons]
        rw [← ih c2 hxs]

theorem checkOverlap_ok_chain :
    ∀ l, checkOverlap l = .ok () →
      List.Chain' (fun x y : String × Nat × Nat => x.2.2 ≤ y.2.1) l := by
  intro l
  induction l with
  | nil => intro _; exact List.chain'_nil
  | cons x xs ih =>
    cases xs with
    | nil => intro _; exact List.chain'_singleton x
    | cons y ys =>
      intro h
      rw [checkOverlap] at h
      by_cases hc : x.2.2 > y.2.1
      · rw [if_pos hc] at h; simp at h
      · rw [if_neg hc] at h
        exact List.chain'_cons.mpr ⟨Nat.le_of_not_lt hc, ih h⟩

theorem chain_head_le :
    ∀ (xs : List (String × Nat × Nat)) (x : String × Nat × Nat),
      List.Chain' (fun a b => a.2.2 ≤ b.2.1) (x :: xs) →
      (∀ y ∈ x :: xs, y.2.1 < y.2.2) →
      ∀ y ∈ xs, x.2.2 ≤ y.2.1 := by
  intro xs
  induction xs with
  | nil => intro x _ _ y hy; simp at hy
  | cons z zs ih =>
    intro x hch hbe y hy
    have hxz : x.2.2 ≤ z.2.1 := (List.chain'_cons.mp hch).1
    rcases List.mem_cons.mp hy with he | hy2
    · rw [he]; exact hxz
    · have hz := ih z (List.chain'_cons.mp hch).2
        (fun w hw => hbe w (List.mem_cons.mpr (Or.inr hw))) y hy2
      have hzbe := hbe z (List.mem_cons.mpr (Or.inr (List.mem_cons.mpr (Or.inl rfl))))
      omega

theorem chain_to_pairwise :
    ∀ l : List (String × Nat × Nat),
      List.Chain' (fun a b => a.2.2 ≤ b.2.1) l →
      (∀ y ∈ l, y.2.1 < y.2.2) →
      List.Pairwise (fun a b => a.2.2 ≤ b.2.1) l := by
  intro l
  induction l with
  | nil => intro _ _; exact List.Pairwise.nil
  | cons x xs ih =>
    intro hch hbe
    rw [List.pairwise_cons]
    refine ⟨chain_head_le xs x hch hbe, ?_⟩
    exact ih ((List.chain'_cons'.mp hch).2) (fun y hy => hbe y (List.mem_cons.mpr (Or.inr hy)))



/-- Everything a successful extraction guarantees, at the level of the
returned tag map and the document's marker events. -/
theorem extract_ok_bundle (lines : List String) (tm : List (String × Nat × Nat))
    (h : extract_tags_lines lines = .ok tm) :
    (tm.map (fun x => x.1)).Nodup ∧
    (∀ x ∈ tm, x.2.1 < x.2.2) ∧
    List.Pairwise (fun x y : String × Nat × Nat => x.2.1 < y.2.1) tm ∧
    List.Pairwise (fun x y : String × Nat × Nat => x.2.2 < y.2.1) tm ∧
    (∀ x ∈ tm, 1 ≤ x.2.1 ∧ x.2.2 ≤ lines.length) ∧
    (∀ x ∈ tm, (x.2.1, true, x.1) ∈ markerEvents 1 lines ∧
      (x.2.2, false, x.1) ∈ markerEvents 1 lines) ∧
    (∀ n t, (n, true, t) ∈ markerEvents 1 lines → ∃ e, (t, n, e) ∈ tm) ∧
    (∀ m t, (m, false, t) ∈ markerEvents 1 lines → ∃ b, (t, b, m) ∈ tm) := by
  obtain ⟨r, hs, hcc, hco⟩ := extract_tags_lines_ok_inv lines tm h
  have hr := checkClosed_ok r tm hcc
  have hnil1 : (keysOf ([] : List Entry)).Nodup := List.nodup_nil
  have hnil2 : (dictNums ([] : List Entry)).Nodup := List.nodup_nil
  obtain ⟨c1, c2, c3, c4, c5⟩ := scanEvents_invariant (markerEvents 1 lines) [] r hs
    (markerEvents_pairwise lines 1)
    (fun ev _ k hk => absurd hk (by simp [dictNums]))
    hnil1 hnil2 List.Pairwise.nil (fun x hx => absurd hx (by simp))
  -- transfer to the closed map
  have hmemr : ∀ x ∈ tm, ((x.1, x.2.1, some x.2.2) : Entry) ∈ r := by
    intro x hx
    rw [hr]
    exact List.mem_map_of_mem _ hx
  have hbe : ∀ x ∈ tm, x.2.1 < x.2.2 := by
    intro x hx
    exact c4 _ (hmemr x hx) x.2.2 rfl
  have hkeys : (tm.map (fun x => x.1)).Nodup := by
    rw [hr] at c1
    have : keysOf (List.map
        (fun x : String × Nat × Nat => ((x.1, x.2.1, some x.2.2) : Entry)) tm)
        = tm.map (fun x => x.1) := by
      simp only [keysOf, List.map_map]
      rfl
    rwa [this] at c1
  have hpb : List.Pairwise (fun x y : String × Nat × Nat => x.2.1 < y.2.1) tm := by
    rw [hr] at c3
    exact (List.pairwise_map.mp c3).imp (fun hab => hab)
  have hnumsr : dictNums r = tm.flatMap (fun x => [x.2.1, x.2.2]) := by
    rw [hr]
    unfold dictNums
    rw [List.flatMap_map]
    rfl
  have hdisj : List.Pairwise (fun x y : String × Nat × Nat =>
      x.2.2 ≠ y.2.1) tm := by
    rw [hnumsr] at c2
    have hd := (List.nodup_flatMap.mp c2).2
    exact hd.imp (fun {a b} hab => by
      intro he
      have : a.2.2 ∈ [b.2.1, b.2.2] := by rw [he]; simp
      exact hab (show a.2.2 ∈ [a.2.1, a.2.2] by simp) this)
  have hsorted : List.insertionSort itemLe tm = tm := by
    refine List.Sorted.insertionSort_eq ?_
    exact hpb.imp (fun hab => Or.inl hab)
  rw [hsorted] at hco
  have hchain := checkOverlap_ok_chain tm hco
  have hple : List.Pairwise (fun x y : String × Nat × Nat => x.2.2 ≤ y.2.1) tm :=
    chain_to_pairwise tm hchain hbe
  have hsep : List.Pairwise (fun x y : String × Nat × Nat => x.2.2 < y.2.1) tm :=
    (hple.and hdisj).imp (fun hab => Nat.lt_of_le_of_ne hab.1 hab.2)
  have hbounds : ∀ x ∈ tm, 1 ≤ x.2.1 ∧ x.2.2 ≤ lines.length := by
    intro x hx
    have hm := hmemr x hx
    have hn1 := (mem_nums_of_mem r _ hm).1
    have hn2 := (mem_nums_of_mem r _ hm).2 x.2.2 rfl
    have hb1 := c5 _ hn1
    have hb2 := c5 _ hn2
    rcases hb1 with hb1 | ⟨ev, hev, hevk⟩
    · exact absurd hb1 (by simp [dictNums])
    · rcases hb2 with hb2 | ⟨ev2, hev2, hevk2⟩
      · exact absurd hb2 (by simp [dictNums])
      · have hbd1 := markerEvents_bounds lines 1 ev hev
        have hbd2 := markerEvents_bounds lines 1 ev2 hev2
        have hevk3 : ev.1 = x.2.1 := hevk
        have hevk4 : ev2.1 = x.2.2 := hevk2
        omega
  have hevcorr : ∀ x ∈ tm, (x.2.1, true, x.1) ∈ markerEvents 1 lines ∧
      (x.2.2, false, x.1) ∈ markerEvents 1 lines := by
    intro x hx
    constructor
    · rcases scanEvents_begin_origin (markerEvents 1 lines) [] r hs
        x.1 x.2.1 (some x.2.2) (hmemr x hx) with ⟨oe0, hoe0⟩ | hE
      · exact absurd hoe0 (by simp)
      · exact hE
    · rcases scanEvents_end_origin (markerEvents 1 lines) [] r hs
        x.1 x.2.1 x.2.2 (hmemr x hx) with hin | hE
      · exact absurd hin (by simp)
      · exact hE
  have hblands : ∀ n t, (n, true, t) ∈ markerEvents 1 lines → ∃ e, (t, n, e) ∈ tm := by
    intro n t hev
    obtain ⟨oe, hoe⟩ := scanEvents_begin_lands (markerEvents 1 lines) [] r hs hnil1 n t hev
    rw [hr] at hoe
    obtain ⟨y, hy, hgy⟩ := List.mem_map.mp hoe
    injection hgy with h1 h23
    injection h23 with h2 h3
    refine ⟨y.2.2, ?_⟩
    rw [← h1, ← h2]
    exact hy
  have helands : ∀ m t, (m, false, t) ∈ markerEvents 1 lines → ∃ b, (t, b, m) ∈ tm := by
    intro m t hev
    obtain ⟨b, hb⟩ := scanEvents_end_lands (markerEvents 1 lines) [] r hs hnil1 m t hev
    rw [hr] at hb
    obtain ⟨y, hy, hgy⟩ := List.mem_map.mp hb
    injection hgy with h1 h23
    injection h23 with h2 h3
    injection h3 with h4
    refine ⟨y.2.1, ?_⟩
    rw [← h1, ← h4]
    exact hy
  exact ⟨hkeys, hbe, hpb, hsep, hbounds, hevcorr, hblands, helands⟩

/-! ### Tag-map invariants (C7) and extraction failures (C5) -/
theorem pairwise_mem_or {α : Type} {R : α → α → Prop} {l : List α}
    (hp : List.Pairwise R l) {x y : α} (hx : x ∈ l) (hy : y ∈ l) (hne : x ≠ y) :
    R x y ∨ R y x := by
  obtain ⟨i, hi, hxi⟩ := List.getElem_of_mem hx
  obtain ⟨j, hj, hyj⟩ := List.getElem_of_mem hy
  have hr := List.pairwise_iff_getElem.mp hp
  rcases Nat.lt_trichotomy i j with hij | hij | hij
  · exact Or.inl (hxi ▸ hyj ▸ hr i j hi hj hij)
  · subst hij
    rw [hxi] at hyj
    exact absurd hyj hne
  · exact Or.inr (hyj ▸ hxi ▸ hr j i hj hi hij)

theorem key_unique (tm : List (String × Nat × Nat))
    (hnd : (tm.map (fun x => x.1)).Nodup) :
    ∀ x ∈ tm, ∀ y ∈ tm, x.1 = y.1 → x = y := by
  intro x hx y hy hxy
  by_contra hne
  have hp : List.Pairwise (fun a b : String × Nat × Nat => a.1 ≠ b.1) tm :=
    List.pairwise_map.mp hnd
  rcases pairwise_mem_or hp hx hy hne with h | h
  · exact h hxy
  · exact h hxy.symm

/-- C7: a returned tag map gives every tag exactly one BEGIN marker line and
one END marker line, with `end_line > begin_line`; the spans, which appear
sorted by begin line, are pairwise non-overlapping (earlier end ≤ later
begin); and the iteration order is first-BEGIN-encountered order (begin
lines strictly increase along the map, so value-sorting is the identity). -/
theorem extract_tags_lines_invariants (lines : List String)
    (tm : List (String × Nat × Nat)) (h : extract_tags_lines lines = .ok tm) :
    (tm.map (fun x => x.1)).Nodup ∧
    (∀ x ∈ tm, x.2.1 < x.2.2 ∧
      (x.2.1, true, x.1) ∈ markerEvents 1 lines ∧
      (x.2.2, false, x.1) ∈ markerEvents 1 lines ∧
      (∀ n, (n, true, x.1) ∈ markerEvents 1 lines → n = x.2.1) ∧
      (∀ m, (m, false, x.1) ∈ markerEvents 1 lines → m = x.2.2)) ∧
    List.Pairwise (fun x y : String × Nat × Nat => x.2.2 ≤ y.2.1) tm ∧
    List.Pairwise (fun x y : String × Nat × Nat => x.2.1 < y.2.1) tm ∧
    List.insertionSort itemLe tm = tm := by
  obtain ⟨hkeys, hbe, hpb, hsep, hbounds, hevcorr, hblands, helands⟩ :=
    extract_ok_bundle lines tm h
  refine ⟨hkeys, ?_, hsep.imp (fun hab => Nat.le_of_lt hab), hpb,
    List.Sorted.insertionSort_eq (hpb.imp (fun hab => Or.inl hab))⟩
  intro x hx
  refine ⟨hbe x hx, (hevcorr x hx).1, (hevcorr x hx).2, ?_, ?_⟩
  · intro n hn
    obtain ⟨e, he⟩ := hblands n x.1 hn
    have := key_unique tm hkeys _ he x hx rfl
    have h2 := congrArg (fun z : String × Nat × Nat => z.2.1) this
    simpa using h2
  · intro m hm
    obtain ⟨b, hb⟩ := helands m x.1 hm
    have := key_unique tm hkeys _ hb x hx rfl
    have h2 := congrArg (fun z : String × Nat × Nat => z.2.2) this
    simpa using h2

/-- Witness for C7 at a concrete document. -/
theorem extract_tags_lines_invariants_witness :
    (([("a", 1, 3)] : List (String × Nat × Nat)).map (fun x => x.1)).Nodup :=
  (extract_tags_lines_invariants
    (splitLines "// BEGIN-TODO(a)\nTODO\n// END-TODO(a)") [("a", 1, 3)] rfl).1

/-- C5: a document with an unmatched BEGIN, an unmatched END, a duplicated
tag, or two overlapping spans always fails extraction. -/
theorem extract_tags_lines_fails_on_defect (lines : List String)
    (hdef : hasUnmatchedBegin (markerEvents 1 lines) ∨
      hasUnmatchedEnd (markerEvents 1 lines) ∨
      hasDuplicateTag (markerEvents 1 lines) ∨
      hasOverlappingSpans (markerEvents 1 lines)) :
    ∀ tm, extract_tags_lines lines ≠ .ok tm := by
  intro tm hok
  obtain ⟨hkeys, hbe, hpb, hsep, hbounds, hevcorr, hblands, helands⟩ :=
    extract_ok_bundle lines tm hok
  rcases hdef with ⟨n, t, hbev, hnoend⟩ | ⟨m, t, heev, hnobegin⟩ |
    ⟨t, n, m, hnm, hdup⟩ | hov
  · obtain ⟨e, he⟩ := hblands n t hbev
    exact hnoend e (hevcorr _ he).2
  · obtain ⟨b, hb⟩ := helands m t heev
    exact hnobegin b (hevcorr _ hb).1
  · rcases hdup with ⟨h1, h2⟩ | ⟨h1, h2⟩
    · obtain ⟨e1, he1⟩ := hblands n t h1
      obtain ⟨e2, he2⟩ := hblands m t h2
      have heq := key_unique tm hkeys _ he1 _ he2 rfl
      have h3 := congrArg (fun z : String × Nat × Nat => z.2.1) heq
      simp at h3
      exact hnm h3
    · obtain ⟨b1, hb1⟩ := helands n t h1
      obtain ⟨b2, hb2⟩ := helands m t h2
      have heq := key_unique tm hkeys _ hb1 _ hb2 rfl
      have h3 := congrArg (fun z : String × Nat × Nat => z.2.2) heq
      simp at h3
      exact hnm h3
  · obtain ⟨t, u, b1, e1, b2, e2, htu, hbt, het, hbu, heu, hle, hover⟩ := hov
    obtain ⟨eA, heA⟩ := hblands b1 t hbt
    obtain ⟨bA, hbA⟩ := helands e1 t het
    have heq1 := key_unique tm hkeys _ heA _ hbA rfl
    have hb1A : b1 = bA := by
      have := congrArg (fun z : String × Nat × Nat => z.2.1) heq1
      simpa using this
    have heA1 : eA = e1 := by
      have := congrArg (fun z : String × Nat × Nat => z.2.2) heq1
      simpa using this
    have hxt : (t, b1, e1) ∈ tm := by
      rw [← heA1]
      exact heA
    obtain ⟨eB, heB⟩ := hblands b2 u hbu
    obtain ⟨bB, hbB⟩ := helands e2 u heu
    have heq2 := key_unique tm hkeys _ heB _ hbB rfl
    have heB1 : eB = e2 := by
      have := congrArg (fun z : String × Nat × Nat => z.2.2) heq2
      simpa using this
    have hxu : (u, b2, e2) ∈ tm := by
      rw [← heB1]
      exact heB
    have hne : ((t, b1, e1) : String × Nat × Nat) ≠ (u, b2, e2) := by
      intro hcon
      injection hcon with hc1 hc2
      exact htu hc1
    rcases pairwise_mem_or (hsep.and hpb) hxt hxu hne with ⟨hs1, _⟩ | ⟨hs1, hs2⟩
    · have hs3 : e1 < b2 := hs1
      omega
    · have hs3 : e2 < b1 := hs1
      have hs4 : b2 < b1 := hs2
      rcases hle with hcase | ⟨hcase, _⟩
      · have hc2 : b1 < b2 := hcase
        omega
      · have hc2 : b1 = b2 := hcase
        omega

/-- Witness for C5: a lone BEGIN marker is an unmatched BEGIN and the
document is rejected. -/
theorem extract_tags_lines_fails_on_defect_witness :
    extract_tags_lines (splitLines "// BEGIN-TODO(a)") ≠ .ok [] := by
  refine extract_tags_lines_fails_on_defect _ (Or.inl ⟨1, "a", ?_, ?_⟩) []
  · rw [show markerEvents 1 (splitLines "// BEGIN-TODO(a)") = [(1, true, "a")] from rfl]
    exact List.mem_singleton.mpr rfl
  · intro m hm
    rw [show markerEvents 1 (splitLines "// BEGIN-TODO(a)") = [(1, true, "a")] from rfl] at hm
    have := List.mem_singleton.mp hm
    injection this with hc1 hc2
    injection hc2 with hc3 hc4
    exact Bool.noConfusion hc3

/-! ### Segment tiling (C6) and marker-line exclusion (C10) -/
theorem chain_span_lt :
    ∀ (rest : List (Nat × Nat)) (b e : Nat),
      List.Chain' (fun s s' : Nat × Nat => s.2 < s'.1) ((b, e) :: rest) →
      (∀ s ∈ rest, s.1 < s.2) →
      ∀ s ∈ rest, e < s.1 := by
  intro rest
  induction rest with
  | nil => intro b e _ _ s hs; simp at hs
  | cons z zs ih =>
    intro b e hch hbe s hs
    have hez : e < z.1 := (List.chain'_cons.mp hch).1
    rcases List.mem_cons.mp hs with he | hs2
    · rw [he]; exact hez
    · have hz := ih z.1 z.2 (by
        have := (List.chain'_cons.mp hch).2
        exact this) (fun w hw => hbe w (List.mem_cons.mpr (Or.inr hw))) s hs2
      have hzb := hbe z (List.mem_cons.mpr (Or.inl rfl))
      omega

theorem piecesLoop_join (lines : List String) :
    ∀ (spans : List (Nat × Nat)) (p : Nat),
      List.Chain' (fun s s' : Nat × Nat => s.2 < s'.1) spans →
      (∀ s ∈ spans, 1 ≤ s.1 ∧ s.1 < s.2 ∧ s.2 ≤ lines.length) →
      (∀ s, spans.head? = some s → p ≤ s.1 - 1) →
      ((piecesLoop lines spans p).map (fun x => x.2)).flatten = lines.drop p := by
  intro spans
  induction spans with
  | nil =>
    intro p _ _ _
    rw [piecesLoop]
    by_cases hp : p < lines.length
    · rw [if_pos hp]
      simp
    · rw [if_neg hp]
      rw [List.drop_eq_nil_of_le (Nat.le_of_not_lt hp)]
      rfl
  | cons s rest ih =>
    intro p hch hwf hcur
    obtain ⟨b, e⟩ := s
    have hwfh := hwf (b, e) (List.mem_cons.mpr (Or.inl rfl))
    have hb1 : 1 ≤ b := hwfh.1
    have hbe : b < e := hwfh.2.1
    have hel : e ≤ lines.length := hwfh.2.2
    have hpb : p ≤ b - 1 := hcur (b, e) rfl
    have hrec : ((piecesLoop lines rest e).map (fun x => x.2)).flatten = lines.drop e := by
      refine ih e ((List.chain'_cons'.mp hch).2)
        (fun w hw => hwf w (List.mem_cons.mpr (Or.inr hw))) ?_
      intro s' hs'
      cases rest with
      | nil => simp at hs'
      | cons z zs =>
        have hz : z = s' := by
          have : (z :: zs).head? = some z := rfl
          rw [this] at hs'
          injection hs'
        have hez : e < z.1 := (List.chain'_cons.mp hch).1
        have hz1 := (hwf z (List.mem_cons.mpr (Or.inr (List.mem_cons.mpr (Or.inl rfl))))).1
        rw [← hz]
        omega
    have h2 : lines.drop (b - 1) =
        (lines.drop (b - 1)).take (e - (b - 1)) ++ lines.drop e := by
      conv_lhs => rw [← List.take_append_drop (e - (b - 1)) (lines.drop (b - 1))]
      congr 1
      rw [List.drop_drop]
      congr 1
      omega
    rw [piecesLoop]
    by_cases hgap : p < b - 1
    · rw [if_pos hgap]
      have h1 : lines.drop p =
          (lines.drop p).take (b - 1 - p) ++ lines.drop (b - 1) := by
        conv_lhs => rw [← List.take_append_drop (b - 1 - p) (lines.drop p)]
        congr 1
        rw [List.drop_drop]
        congr 1
        omega
      calc ((([(false, (lines.drop p).take (b - 1 - p))]
              ++ (true, (lines.drop (b - 1)).take (e - (b - 1))) :: piecesLoop lines rest e)).map
              (fun x => x.2)).flatten
          = (lines.drop p).take (b - 1 - p)
            ++ ((lines.drop (b - 1)).take (e - (b - 1)) ++ lines.drop e) := by
            simp [hrec, List.append_assoc]
        _ = (lines.drop p).take (b - 1 - p) ++ lines.drop (b - 1) := by rw [← h2]
        _ = lines.drop p := h1.symm
    · rw [if_neg hgap]
      have hpeq : p = b - 1 := by omega
      subst hpeq
      calc (((true, (lines.drop (b - 1)).take (e - (b - 1))) :: piecesLoop lines rest e).map
              (fun x => x.2)).flatten
          = (lines.drop (b - 1)).take (e - (b - 1)) ++ lines.drop e := by
            simp [hrec]
        _ = lines.drop (b - 1) := h2.symm



theorem piecesLoop_gaps (lines : List String) :
    ∀ (spans : List (Nat × Nat)) (p : Nat),
      (piecesLoop lines spans p).filterMap
        (fun x => if x.1 then none else some (joinLines x.2)) = segsLoop lines spans p := by
  intro spans
  induction spans with
  | nil =>
    intro p
    rw [piecesLoop, segsLoop]
    by_cases hp : p < lines.length
    · rw [if_pos hp, if_pos hp]
      simp
    · rw [if_neg hp, if_neg hp]
      rfl
  | cons s rest ih =>
    intro p
    obtain ⟨b, e⟩ := s
    rw [piecesLoop, segsLoop]
    by_cases hgap : p < b - 1
    · rw [if_pos hgap, if_pos hgap, List.filterMap_append]
      simp [ih e]
    · rw [if_neg hgap, if_neg hgap]
      simp [ih e]

theorem piecesLoop_spans (lines : List String) :
    ∀ (spans : List (Nat × Nat)) (p : Nat),
      (piecesLoop lines spans p).filterMap
        (fun x => if x.1 then some x.2 else none)
        = spans.map (fun s => (lines.drop (s.1 - 1)).take (s.2 - (s.1 - 1))) := by
  intro spans
  induction spans with
  | nil =>
    intro p
    rw [piecesLoop]
    by_cases hp : p < lines.length
    · rw [if_pos hp]
      simp
    · rw [if_neg hp]
      rfl
  | cons s rest ih =>
    intro p
    obtain ⟨b, e⟩ := s
    rw [piecesLoop]
    by_cases hgap : p < b - 1
    · rw [if_pos hgap]
      simp [ih e]
    · rw [if_neg hgap]
      simp [ih e]

theorem segsLoop_eq_segRuns (lines : List String) :
    ∀ (spans : List (Nat × Nat)) (p : Nat),
      segsLoop lines spans p = (segRuns lines.length spans p).map
        (fun r => joinLines ((lines.drop r.1).take (r.2 - r.1))) := by
  intro spans
  induction spans with
  | nil =>
    intro p
    rw [segsLoop, segRuns]
    by_cases hp : p < lines.length
    · rw [if_pos hp, if_pos hp]
      have : (lines.drop p).take (lines.length - p) = lines.drop p := by
        rw [← List.length_drop p lines]
        exact List.take_length _
      rw [List.map_cons]
      rw [this]
      rfl
    · rw [if_neg hp, if_neg hp]
      rfl
  | cons s rest ih =>
    intro p
    obtain ⟨b, e⟩ := s
    rw [segsLoop, segRuns]
    by_cases hgap : p < b - 1
    · rw [if_pos hgap, if_pos hgap]
      simp [ih e]
    · rw [if_neg hgap, if_neg hgap]
      simp [ih e]

theorem segRuns_avoid (len : Nat) :
    ∀ (spans : List (Nat × Nat)) (p : Nat),
      List.Chain' (fun s s' : Nat × Nat => s.2 < s'.1) spans →
      (∀ s ∈ spans, 1 ≤ s.1 ∧ s.1 < s.2) →
      (∀ s, spans.head? = some s → p ≤ s.1 - 1) →
      ∀ r ∈ segRuns len spans p, p ≤ r.1 ∧ ∀ s ∈ spans, r.2 ≤ s.1 - 1 ∨ s.2 ≤ r.1 := by
  intro spans
  induction spans with
  | nil =>
    intro p _ _ _ r hr
    rw [segRuns] at hr
    by_cases hp : p < len
    · rw [if_pos hp] at hr
      rw [List.mem_singleton.mp hr]
      exact ⟨Nat.le_refl p, fun s hs => absurd hs (by simp)⟩
    · rw [if_neg hp] at hr
      simp at hr
  | cons s rest ih =>
    intro p hch hwf hcur r hr
    obtain ⟨b, e⟩ := s
    have hwfh := hwf (b, e) (List.mem_cons.mpr (Or.inl rfl))
    have hpb : p ≤ b - 1 := hcur (b, e) rfl
    have hrestwf : ∀ s ∈ rest, 1 ≤ s.1 ∧ s.1 < s.2 :=
      fun w hw => hwf w (List.mem_cons.mpr (Or.inr hw))
    have hlt := chain_span_lt rest b e hch (fun w hw => (hrestwf w hw).2)
    have hcur2 : ∀ s', rest.head? = some s' → e ≤ s'.1 - 1 := by
      intro s' hs'
      cases rest with
      | nil => simp at hs'
      | cons z zs =>
        have hz : z = s' := by
          have : (z :: zs).head? = some z := rfl
          rw [this] at hs'
          injection hs'
        have hez : e < z.1 := (List.chain'_cons.mp hch).1
        have hz1 := (hrestwf z (List.mem_cons.mpr (Or.inl rfl))).1
        rw [← hz]
        omega
    rw [segRuns] at hr
    by_cases hgap : p < b - 1
    · rw [if_pos hgap] at hr
      rcases List.mem_append.mp hr with hr1 | hr2
      · rw [List.mem_singleton.mp hr1]
        refine ⟨Nat.le_refl p, ?_⟩
        intro s hs
        rcases List.mem_cons.mp hs with he | hs2
        · rw [he]
          exact Or.inl (Nat.le_refl _)
        · have := hlt s hs2
          have h1 := (hrestwf s hs2).1
          exact Or.inl (by omega)
      · have hrec := ih e ((List.chain'_cons'.mp hch).2) hrestwf hcur2 r hr2
        refine ⟨by omega, ?_⟩
        intro s hs
        rcases List.mem_cons.mp hs with he | hs2
        · rw [he]
          exact Or.inr (by
            have := hrec.1
            simp only []
            omega)
        · exact hrec.2 s hs2
    · rw [if_neg hgap, List.nil_append] at hr
      have hrec := ih e ((List.chain'_cons'.mp hch).2) hrestwf hcur2 r hr
      refine ⟨by omega, ?_⟩
      intro s hs
      rcases List.mem_cons.mp hs with he | hs2
      · rw [he]
        exact Or.inr (by
          have := hrec.1
          simp only []
          omega)
      · exact hrec.2 s hs2



theorem spans_facts (lines : List String) (tm : List (String × Nat × Nat))
    (h : extract_tags_lines lines = .ok tm) :
    List.insertionSort pairLe (tm.map (fun x => x.2)) = tm.map (fun x => x.2) ∧
    List.Chain' (fun s s' : Nat × Nat => s.2 < s'.1) (tm.map (fun x => x.2)) ∧
    (∀ s ∈ tm.map (fun x => x.2), 1 ≤ s.1 ∧ s.1 < s.2 ∧ s.2 ≤ lines.length) := by
  obtain ⟨hkeys, hbe, hpb, hsep, hbounds, hevcorr, hblands, helands⟩ :=
    extract_ok_bundle lines tm h
  refine ⟨?_, ?_, ?_⟩
  · refine List.Sorted.insertionSort_eq ?_
    exact List.pairwise_map.mpr (hpb.imp (fun hab => Or.inl hab))
  · exact (List.pairwise_map.mpr (hsep.imp (fun hab => hab))).chain'
  · intro s hs
    obtain ⟨x, hx, hxs⟩ := List.mem_map.mp hs
    rw [← hxs]
    exact ⟨(hbounds x hx).1, hbe x hx, (hbounds x hx).2⟩

/-- C6: for a successfully extracted document, the interleaving of the
segments produced by `extract_original_segments` (the gap pieces) with the
marker-span line runs, taken in line order, reconstructs the document
exactly: its gap pieces are precisely the extracted segments, its span
pieces are precisely the spans' line runs, and its concatenation is the
original line list. -/
theorem segments_spans_reconstruct (lines : List String)
    (tm : List (String × Nat × Nat)) (h : extract_tags_lines lines = .ok tm) :
    (piecesLoop lines (List.insertionSort pairLe (tm.map (fun x => x.2))) 0).filterMap
        (fun x => if x.1 then none else some (joinLines x.2))
      = extract_original_segments lines tm ∧
    (piecesLoop lines (List.insertionSort pairLe (tm.map (fun x => x.2))) 0).filterMap
        (fun x => if x.1 then some x.2 else none)
      = (List.insertionSort pairLe (tm.map (fun x => x.2))).map
          (fun s => (lines.drop (s.1 - 1)).take (s.2 - (s.1 - 1))) ∧
    ((piecesLoop lines (List.insertionSort pairLe (tm.map (fun x => x.2))) 0).map
        (fun x => x.2)).flatten = lines := by
  obtain ⟨hsort, hch, hwf⟩ := spans_facts lines tm h
  refine ⟨piecesLoop_gaps lines _ 0, piecesLoop_spans lines _ 0, ?_⟩
  rw [hsort]
  have := piecesLoop_join lines (tm.map (fun x => x.2)) 0 hch hwf
    (fun s _ => Nat.zero_le _)
  rw [List.drop_zero] at this
  exact this

/-- Witness for C6 at a concrete document. -/
theorem segments_spans_reconstruct_witness :
    ((piecesLoop (splitLines "header\n// BEGIN-TODO(a)\nTODO\n// END-TODO(a)\nfooter")
        (List.insertionSort pairLe (([("a", 2, 4)] : List (String × Nat × Nat)).map
          (fun x => x.2))) 0).map (fun x => x.2)).flatten
      = splitLines "header\n// BEGIN-TODO(a)\nTODO\n// END-TODO(a)\nfooter" :=
  (segments_spans_reconstruct
    (splitLines "header\n// BEGIN-TODO(a)\nTODO\n// END-TODO(a)\nfooter")
    [("a", 2, 4)] rfl).2.2

/-- C10: the extracted segments are exactly the joins of index runs lying
strictly outside every marker span, so no BEGIN or END marker line is ever
part of a segment. -/
theorem segments_exclude_marker_lines (lines : List String)
    (tm : List (String × Nat × Nat)) (h : extract_tags_lines lines = .ok tm) :
    extract_original_segments lines tm
      = (segRuns lines.length
          (List.insertionSort pairLe (tm.map (fun x => x.2))) 0).map
          (fun r => joinLines ((lines.drop r.1).take (r.2 - r.1))) ∧
    ∀ r ∈ segRuns lines.length
        (List.insertionSort pairLe (tm.map (fun x => x.2))) 0,
      ∀ x ∈ tm, ∀ i, r.1 ≤ i → i < r.2 → i + 1 ≠ x.2.1 ∧ i + 1 ≠ x.2.2 := by
  obtain ⟨hsort, hch, hwf⟩ := spans_facts lines tm h
  constructor
  · exact segsLoop_eq_segRuns lines _ 0
  · intro r hr x hx i hir hir2
    rw [hsort] at hr
    have havoid := segRuns_avoid lines.length (tm.map (fun x => x.2)) 0 hch
      (fun s hs => ⟨(hwf s hs).1, (hwf s hs).2.1⟩) (fun s _ => Nat.zero_le _) r hr
    have hs := havoid.2 x.2 (List.mem_map_of_mem _ hx)
    have hwfx := hwf x.2 (List.mem_map_of_mem _ hx)
    have hc1 : 1 ≤ x.2.1 := hwfx.1
    have hc2 : x.2.1 < x.2.2 := hwfx.2.1
    rcases hs with hs | hs
    · have hs2 : r.2 ≤ x.2.1 - 1 := hs
      omega
    · have hs2 : x.2.2 ≤ r.1 := hs
      omega

/-- Witness for C10 at a concrete document. -/
theorem segments_exclude_marker_lines_witness :
    extract_original_segments
        (splitLines "header\n// BEGIN-TODO(a)\nTODO\n// END-TODO(a)\nfooter") [("a", 2, 4)]
      = (segRuns (splitLines "header\n// BEGIN-TODO(a)\nTODO\n// END-TODO(a)\nfooter").length
          (List.insertionSort pairLe (([("a", 2, 4)] : List (String × Nat × Nat)).map
            (fun x => x.2))) 0).map
          (fun r => joinLines (((splitLines
            "header\n// BEGIN-TODO(a)\nTODO\n// END-TODO(a)\nfooter").drop r.1).take
              (r.2 - r.1))) :=
  (segments_exclude_marker_lines
    (splitLines "header\n// BEGIN-TODO(a)\nTODO\n// END-TODO(a)\nfooter")
    [("a", 2, 4)] rfl).1

/-! ### The orchestrator verdict (C8) -/
theorem rejectedMsg_ne_acceptedMsg (e : String) : rejectedMsg e ≠ acceptedMsg := by
  intro h
  have h2 := congrArg String.data h
  have h3 : "The submission is REJECTED.\n".data ++ e.data
      = "The submission is ACCEPTED.".data := by
    rw [← String.data_append]
    exact h2
  have h4 := congrArg (List.take 19) h3
  rw [List.take_append_of_le_length (by decide)] at h4
  exact absurd h4 (by decide)



/-- C8: `check_submission` always returns a verdict string: the ACCEPTED
message exactly when the filename check, both tag extractions, the tag
comparison and the segment comparison all succeed, and otherwise the
REJECTED message carrying the first failing stage's description. -/
theorem check_submission_verdict (flag : Bool) (af sf aT sT : String) :
    (check_submission flag af sf aT sT = acceptedMsg ↔
      (check_filenames flag af sf = .ok () ∧
       ∃ aTags sTags, extract_tags aT = .ok aTags ∧ extract_tags sT = .ok sTags ∧
         compare_tags aTags sTags = .ok () ∧
         compare_segments (extract_original_segments (splitLines aT) aTags)
           (extract_original_segments (splitLines sT) sTags) = .ok ())) ∧
    (∀ e, check_filenames flag af sf = .error e →
      check_submission flag af sf aT sT = rejectedMsg e) ∧
    (check_filenames flag af sf = .ok () → ∀ e, extract_tags aT = .error e →
      check_submission flag af sf aT sT = rejectedMsg e) ∧
    (check_filenames flag af sf = .ok () → ∀ aTags, extract_tags aT = .ok aTags →
      ∀ e, extract_tags sT = .error e →
      check_submission flag af sf aT sT = rejectedMsg e) ∧
    (check_filenames flag af sf = .ok () → ∀ aTags sTags, extract_tags aT = .ok aTags →
      extract_tags sT = .ok sTags → ∀ e, compare_tags aTags sTags = .error e →
      check_submission flag af sf aT sT = rejectedMsg e) ∧
    (check_filenames flag af sf = .ok () → ∀ aTags sTags, extract_tags aT = .ok aTags →
      extract_tags sT = .ok sTags → compare_tags aTags sTags = .ok () →
      ∀ e, compare_segments (extract_original_segments (splitLines aT) aTags)
        (extract_original_segments (splitLines sT) sTags) = .error e →
      check_submission flag af sf aT sT = rejectedMsg e) ∧
    (check_submission flag af sf aT sT = acceptedMsg ∨
      ∃ e, check_submission flag af sf aT sT = rejectedMsg e) := by
  cases hcf : check_filenames flag af sf with
  | error e0 =>
    have hcs : check_submission flag af sf aT sT = rejectedMsg e0 := by
      unfold check_submission
      rw [hcf]
    refine ⟨⟨fun hacc => absurd (hcs.symm.trans hacc) (rejectedMsg_ne_acceptedMsg e0), ?_⟩,
      ?_, ?_, ?_, ?_, ?_, Or.inr ⟨e0, hcs⟩⟩
    · rintro ⟨hok, _⟩
      exact absurd hok (by simp)
    · intro e he
      injection he with he2
      rw [hcs, he2]
    · intro hok
      exact absurd hok (by simp)
    · intro hok
      exact absurd hok (by simp)
    · intro hok
      exact absurd hok (by simp)
    · intro hok
      exact absurd hok (by simp)
  | ok u0 =>
    cases u0
    cases hat : extract_tags aT with
    | error e1 =>
      have hcs : check_submission flag af sf aT sT = rejectedMsg e1 := by
        unfold check_submission
        rw [hcf, hat]
      refine ⟨⟨fun hacc => absurd (hcs.symm.trans hacc) (rejectedMsg_ne_acceptedMsg e1), ?_⟩,
        ?_, ?_, ?_, ?_, ?_, Or.inr ⟨e1, hcs⟩⟩
      · rintro ⟨_, aTags2, sTags2, hA, _⟩
        exact absurd hA (by simp)
      · intro e he
        exact absurd he (by simp)
      · intro _ e he
        injection he with he2
        rw [hcs, he2]
      · intro _ aTags2 hA
        exact absurd hA (by simp)
      · intro _ aTags2 sTags2 hA
        exact absurd hA (by simp)
      · intro _ aTags2 sTags2 hA
        exact absurd hA (by simp)
    | ok aTags =>
      cases hst : extract_tags sT with
      | error e2 =>
        have hcs : check_submission flag af sf aT sT = rejectedMsg e2 := by
          unfold check_submission
          rw [hcf, hat, hst]
        refine ⟨⟨fun hacc => absurd (hcs.symm.trans hacc) (rejectedMsg_ne_acceptedMsg e2), ?_⟩,
          ?_, ?_, ?_, ?_, ?_, Or.inr ⟨e2, hcs⟩⟩
        · rintro ⟨_, aTags2, sTags2, hA, hS, _⟩
          exact absurd hS (by simp)
        · intro e he
          exact absurd he (by simp)
        · intro _ e he
          exact absurd he (by simp)
        · intro _ aTags2 hA e he
          injection he with he2
          rw [hcs, he2]
        · intro _ aTags2 sTags2 hA hS
          exact absurd hS (by simp)
        · intro _ aTags2 sTags2 hA hS
          exact absurd hS (by simp)
      | ok sTags =>
        cases hct : compare_tags aTags sTags with
        | error e3 =>
          have hcs : check_submission flag af sf aT sT = rejectedMsg e3 := by
            unfold check_submission
            rw [hcf, hat, hst]
            dsimp only
            rw [hct]
          refine ⟨⟨fun hacc => absurd (hcs.symm.trans hacc)
            (rejectedMsg_ne_acceptedMsg e3), ?_⟩,
            ?_, ?_, ?_, ?_, ?_, Or.inr ⟨e3, hcs⟩⟩
          · rintro ⟨_, aTags2, sTags2, hA, hS, hC, _⟩
            injection hA with hA2
            injection hS with hS2
            subst hA2
            subst hS2
            rw [hct] at hC
            exact absurd hC (by simp)
          · intro e he
            exact absurd he (by simp)
          · intro _ e he
            exact absurd he (by simp)
          · intro _ aTags2 hA e he
            exact absurd he (by simp)
          · intro _ aTags2 sTags2 hA hS e he
            injection hA with hA2
            injection hS with hS2
            subst hA2
            subst hS2
            rw [hct] at he
            injection he with he2
            rw [hcs, he2]
          · intro _ aTags2 sTags2 hA hS hC
            injection hA with hA2
            injection hS with hS2
            subst hA2
            subst hS2
            rw [hct] at hC
            exact absurd hC (by simp)
        | ok u2 =>
          cases u2
          cases hsg : compare_segments (extract_original_segments (splitLines aT) aTags)
              (extract_original_segments (splitLines sT) sTags) with
          | error e4 =>
            have hcs : check_submission flag af sf aT sT = rejectedMsg e4 := by
              unfold check_submission
              rw [hcf, hat, hst]
              dsimp only
              rw [hct]
              dsimp only
              rw [hsg]
            refine ⟨⟨fun hacc => absurd (hcs.symm.trans hacc)
              (rejectedMsg_ne_acceptedMsg e4), ?_⟩,
              ?_, ?_, ?_, ?_, ?_, Or.inr ⟨e4, hcs⟩⟩
            · rintro ⟨_, aTags2, sTags2, hA, hS, hC, hG⟩
              injection hA with hA2
              injection hS with hS2
              subst hA2
              subst hS2
              rw [hsg] at hG
              exact absurd hG (by simp)
            · intro e he
              exact absurd he (by simp)
            · intro _ e he
              exact absurd he (by simp)
            · intro _ aTags2 hA e he
              exact absurd he (by simp)
            · intro _ aTags2 sTags2 hA hS e he
              injection hA with hA2
              injection hS with hS2
              subst hA2
              subst hS2
              rw [hct] at he
              exact absurd he (by simp)
            · intro _ aTags2 sTags2 hA hS hC e he
              injection hA with hA2
              injection hS with hS2
              subst hA2
              subst hS2
              rw [hsg] at he
              injection he with he2
              rw [hcs, he2]
          | ok u3 =>
            cases u3
            have hcs : check_submission flag af sf aT sT = acceptedMsg := by
              unfold check_submission
              rw [hcf, hat, hst]
              dsimp only
              rw [hct]
              dsimp only
              rw [hsg]
            refine ⟨⟨fun _ => ⟨rfl, aTags, sTags, rfl, rfl, hct, hsg⟩, fun _ => hcs⟩,
              ?_, ?_, ?_, ?_, ?_, Or.inl hcs⟩
            · intro e he
              exact absurd he (by simp)
            · intro _ e he
              exact absurd he (by simp)
            · intro _ aTags2 hA e he
              exact absurd he (by simp)
            · intro _ aTags2 sTags2 hA hS e he
              injection hA with hA2
              injection hS with hS2
              subst hA2
              subst hS2
              rw [hct] at he
              exact absurd he (by simp)
            · intro _ aTags2 sTags2 hA hS hC e he
              injection hA with hA2
              injection hS with hS2
              subst hA2
              subst hS2
              rw [hsg] at he
              exact absurd he (by simp)

/-- Witness for C8: a fully accepted concrete run. -/
theorem check_submission_verdict_witness :
    check_submission false "hw-assignment.dfy" "hw-submission.dfy"
      "// BEGIN-TODO(a)\nTODO\n// END-TODO(a)" "// BEGIN-TODO(a)\nanswer\n// END-TODO(a)"
      = acceptedMsg :=
  (check_submission_verdict false "hw-assignment.dfy" "hw-submission.dfy"
    "// BEGIN-TODO(a)\nTODO\n// END-TODO(a)"
    "// BEGIN-TODO(a)\nanswer\n// END-TODO(a)").1.mpr
    ⟨rfl, [("a", 1, 3)], [("a", 1, 3)], rfl, rfl, rfl, rfl⟩

end CheckSubmission
